import Mathlib

/-!
# Latency and summing nodes of the audio graph

A shallow embedding of `examples/AudioNodeDev/UtilityNodes.h`
(`LatencyAudioNode`, `SummingAudioNode`, `makeSummingAudioNode`) together with
the parts of the runtime they call and that live elsewhere in the repository
(`AudioNodeProperties`, the audio block `add`, `tracktion_engine::AudioFifo`,
the per-block driver, the processed flag, the MIDI buffer, send and return).

Conventions of the embedding:

* samples are integers (`Sample := Int`); rounding of 32-bit floats is outside
  the model, only the data flow of samples is described;
* an audio block is channel-major, a list of channels, each a list of samples;
* `int` latencies are `Int`; `std::max` and the one subtraction of two
  non-negative values cannot overflow for values that fit an `int`; the
  additions that size the ring in `prepareToPlay` can, and are wrapped to 32
  bits (`wrapInt`), so the theorems about a prepared ring carry the bound
  `L + B + 1 <= INT_MAX`;
* a node object with mutable members becomes a value, and a method that
  mutates it returns the new value;
* a node owns its inputs, so a pointer to a node is the path of child indices
  that leads to it (`NodeId`), and the processed flags are a map on paths.
-/

namespace TracktionGraph

/-! ## Data model -/

/-- One audio sample. -/
abbrev Sample := Int

/-- The largest value of the 32-bit `int` of the source. -/
def INT_MAX : Nat := 2147483647

/-- The value an `int` operation yields when its exact result is `x`: `x` wrapped
to 32 bits, two's complement. -/
def wrapInt (x : Int) : Int := (x + 2147483648) % 4294967296 - 2147483648

/-- A block of audio, channel-major: `b[c][i]` is frame `i` of channel `c`. -/
abbrev AudioBlock := List (List Sample)

/-- Modelled from the spec: the struct `AudioNodeProperties` is declared in the
graph module, not in `UtilityNodes.h`; its four fields are those of
NodeProperties (section 3). `SummingAudioNode::getAudioNodeProperties` sets the
first three explicitly and relies on the default of `latencyNumSamples`, 0. -/
structure AudioNodeProperties where
  hasAudio : Bool
  hasMidi : Bool
  numberOfChannels : Nat
  latencyNumSamples : Int
deriving DecidableEq

namespace AudioBlock

/-- Number of channels of a block. -/
def getNumChannels (b : AudioBlock) : Nat := b.length

/-- Number of frames of a block (that of its first channel; blocks are rectangular). -/
def getNumSamples : AudioBlock → Nat
  | [] => 0
  | ch :: _ => ch.length

/-- A block of silence with the given shape (a cleared output slot). -/
def zero (numChannels numSamples : Nat) : AudioBlock :=
  List.replicate numChannels (List.replicate numSamples 0)

/-- Frame `i` of channel `c`, and 0 where the block has no such sample. -/
def getSample (b : AudioBlock) (c i : Nat) : Sample := (b.getD c []).getD i 0

/-- A block is rectangular with `numChannels` channels of `numSamples` frames. -/
def HasShape (b : AudioBlock) (numChannels numSamples : Nat) : Prop :=
  b.length = numChannels ∧ ∀ ch ∈ b, ch.length = numSamples

/-- Adds the samples of `src` onto `dst`, frame by frame, over the frames both have. -/
def addChannel : List Sample → List Sample → List Sample
  | [], _ => []
  | d :: ds, [] => d :: ds
  | d :: ds, s :: ss => (d + s) :: addChannel ds ss

/-- Modelled from the spec: the block primitive `add` (`addFrom`, sections 4.2 and
4.5) is library code. The source block is added into the destination; channels
of the source that the destination lacks are clipped, channels of the
destination that the source lacks receive no contribution. -/
def add : AudioBlock → AudioBlock → AudioBlock
  | [], _ => []
  | d :: ds, [] => d :: ds
  | d :: ds, s :: ss => addChannel d s :: add ds ss

/-- Block `j` of the sequence is rectangular with `numChannels` channels of
`sizes[j]` frames, for every `j`. -/
def Shapes (blocks : List AudioBlock) (numChannels : Nat) (sizes : List Nat) : Prop :=
  List.Forall₂ (fun b n => HasShape b numChannels n) blocks sizes

/-- Channel `c` of a sequence of blocks, concatenated. -/
def concatChannel (blocks : List AudioBlock) (c : Nat) : List Sample :=
  (blocks.map (fun b => b.getD c [])).flatten

end AudioBlock

/-! ## The delay ring -/

/-- Modelled from the spec: `tracktion_engine::AudioFifo` is declared in the
engine module, not in `UtilityNodes.h`. Section 4.3 gives its contract: a
fixed-capacity FIFO of frames.
`size` is the capacity handed to `setSize`, `numReady` the distance between the
read and the write position, `channels` the ready samples of each channel,
oldest first. -/
structure AudioFifo where
  size : Nat
  numReady : Nat
  channels : List (List Sample)
deriving DecidableEq

namespace AudioFifo

/-- The member initialiser `fifo { 1, 32 }`: an empty ring. -/
def init (numChannels numSamples : Nat) : AudioFifo :=
  { size := numSamples, numReady := 0, channels := List.replicate numChannels [] }

/-- Modelled from the spec: `setSize` resizes the ring and leaves it empty. -/
def setSize (_fifo : AudioFifo) (numChannels numSamples : Nat) : AudioFifo :=
  { size := numSamples, numReady := 0, channels := List.replicate numChannels [] }

/-- Number of channels of the ring. -/
def getNumChannels (fifo : AudioFifo) : Nat := fifo.channels.length

/-- Modelled from the spec: `readyFrames()`, the distance between the pointers. -/
def getNumReady (fifo : AudioFifo) : Nat := fifo.numReady

/-- Modelled from the spec: the ring keeps one frame of head-room (sections 3 and
4.4), so a ring of capacity `size` accepts `size - 1` frames at most. -/
def getFreeSpace (fifo : AudioFifo) : Nat := fifo.size - 1 - fifo.numReady

/-- Modelled from the spec: `writeSilence(n)` prepends `n` zero frames (section
4.3). A request that does not fit leaves the ring as it is. -/
def writeSilence (fifo : AudioFifo) (numSamples : Nat) : AudioFifo :=
  if numSamples ≤ fifo.getFreeSpace then
    { fifo with
      numReady := fifo.numReady + numSamples
      channels := fifo.channels.map (fun q => List.replicate numSamples 0 ++ q) }
  else fifo

/-- Modelled from the spec: `write(block)` appends the frames of the block
(section 4.3), channel by channel; the channel counts of ring and block are
expected to match (section 4.2). A block that does not fit leaves the ring as
it is. -/
def write (fifo : AudioFifo) (block : AudioBlock) : AudioFifo :=
  if AudioBlock.getNumSamples block ≤ fifo.getFreeSpace then
    { fifo with
      numReady := fifo.numReady + AudioBlock.getNumSamples block
      channels := List.zipWith (fun q ch => q ++ ch) fifo.channels block }
  else fifo

/-- Modelled from the spec: `readAdding(dest)` consumes `dest.numFrames` frames
from the head and adds them into the destination rather than overwriting it
(section 4.3). When fewer frames are ready, nothing is read. -/
def readAdding (fifo : AudioFifo) (dest : AudioBlock) : AudioFifo × AudioBlock :=
  if AudioBlock.getNumSamples dest ≤ fifo.numReady then
    ({ fifo with
       numReady := fifo.numReady - AudioBlock.getNumSamples dest
       channels := fifo.channels.map (fun q => q.drop (AudioBlock.getNumSamples dest)) },
     AudioBlock.add dest (fifo.channels.map (fun q => q.take (AudioBlock.getNumSamples dest))))
  else (fifo, dest)

/-- The state of the ring of a prepared latency node between two process calls:
capacity `delay + blockSize + 1`, and `delay` frames ready on each of the
`numChannels` channels. -/
def Primed (fifo : AudioFifo) (numChannels delay blockSize : Nat) : Prop :=
  fifo.size = delay + blockSize + 1 ∧ fifo.numReady = delay ∧
    fifo.channels.length = numChannels ∧ ∀ q ∈ fifo.channels, q.length = delay

end AudioFifo

/-! ## The two node classes, method by method -/

namespace LatencyAudioNode

/-- `LatencyAudioNode::getAudioNodeProperties`, given the properties of `input`. -/
def getAudioNodeProperties (inputProps : AudioNodeProperties) (latencyNumSamples : Int) :
    AudioNodeProperties :=
  let props := inputProps
  { props with latencyNumSamples := max props.latencyNumSamples latencyNumSamples }

/-- `LatencyAudioNode::prepareToPlay`: size the ring, prime it with silence. The
capacity `latencyNumSamples + info.blockSize + 1` is computed in `int`: each of
the two additions is wrapped to 32 bits. -/
def prepareToPlay (numberOfChannels : Nat) (latencyNumSamples : Int) (blockSize : Nat)
    (fifo : AudioFifo) : AudioFifo :=
  let fifo1 := fifo.setSize numberOfChannels
    (wrapInt (wrapInt (latencyNumSamples + (blockSize : Int)) + 1)).toNat
  fifo1.writeSilence latencyNumSamples.toNat

/-- `LatencyAudioNode::process`: write the input's block, read-add into the output
block. The three `jassert`s are debug-only checks and change nothing. -/
def process (fifo : AudioFifo) (inputBuffer outputBlock : AudioBlock) : AudioFifo × AudioBlock :=
  let fifo1 := fifo.write inputBuffer
  fifo1.readAdding outputBlock

/-- A sequence of `process` calls with arbitrary input and output blocks: each
call is a pair (input's block, output block as handed in). Returns the ring
after the last call. -/
def processCalls : AudioFifo → List (AudioBlock × AudioBlock) → AudioFifo
  | fifo, [] => fifo
  | fifo, call :: rest => processCalls (process fifo call.1 call.2).1 rest

/-- A sequence of `process` calls on one node: call `j` gets the input's block
`inputs[j]` and an output block of the same shape, cleared. Returns the ring
after the last call and the output blocks. -/
def run (numberOfChannels : Nat) : AudioFifo → List AudioBlock → AudioFifo × List AudioBlock
  | fifo, [] => (fifo, [])
  | fifo, inputBuffer :: rest =>
      let r := process fifo inputBuffer
        (AudioBlock.zero numberOfChannels (AudioBlock.getNumSamples inputBuffer))
      let rs := run numberOfChannels r.1 rest
      (rs.1, r.2 :: rs.2)

end LatencyAudioNode

namespace SummingAudioNode

/-- `SummingAudioNode::process`: the loop adding each input's processed output
to the destination block, in the order of `nodes`. -/
def process : List AudioBlock → AudioBlock → AudioBlock
  | [], audio => audio
  | nodeOutput :: rest, audio => process rest (AudioBlock.add audio nodeOutput)

end SummingAudioNode

/-! ## Node trees -/

/-- A node of the graph. `source` stands for a node of any other class without
inputs: it declares `props` and emits the blocks of `output`, one per process
call. The other two constructors are the objects of the two classes with their
members (`input`, `latencyNumSamples`, `fifo`; `nodes`). -/
inductive AudioNode where
  | source (props : AudioNodeProperties) (output : List AudioBlock)
  | latencyAudioNode (input : AudioNode) (latencyNumSamples : Int) (fifo : AudioFifo)
  | summingAudioNode (nodes : List AudioNode)

namespace AudioNode

mutual
/-- The virtual `getAudioNodeProperties()`. -/
def getAudioNodeProperties : AudioNode → AudioNodeProperties
  | .source props _ => props
  | .latencyAudioNode input latencyNumSamples _ =>
      LatencyAudioNode.getAudioNodeProperties input.getAudioNodeProperties latencyNumSamples
  | .summingAudioNode nodes =>
      sumProperties
        { hasAudio := false, hasMidi := false, numberOfChannels := 0, latencyNumSamples := 0 }
        nodes
/-- The loop of `SummingAudioNode::getAudioNodeProperties` over `nodes`. -/
def sumProperties : AudioNodeProperties → List AudioNode → AudioNodeProperties
  | props, [] => props
  | props, node :: rest =>
      let nodeProps := node.getAudioNodeProperties
      sumProperties
        { hasAudio := props.hasAudio || nodeProps.hasAudio
          hasMidi := props.hasMidi || nodeProps.hasMidi
          numberOfChannels := max props.numberOfChannels nodeProps.numberOfChannels
          latencyNumSamples := max props.latencyNumSamples nodeProps.latencyNumSamples }
        rest
end

/-- Declared latency of a node. -/
def latency (node : AudioNode) : Int := node.getAudioNodeProperties.latencyNumSamples

/-- The constructor `LatencyAudioNode (inputNode, numSamplesToDelay)`. -/
def makeLatencyAudioNode (inputNode : AudioNode) (numSamplesToDelay : Int) : AudioNode :=
  .latencyAudioNode inputNode numSamplesToDelay (AudioFifo.init 1 32)

/-- The loop of the constructor of `SummingAudioNode` over `nodes`. -/
def addLatencies (maxLatency : Int) : List AudioNode → List AudioNode
  | [] => []
  | node :: rest =>
      let nodeLatency := node.getAudioNodeProperties.latencyNumSamples
      let latencyToAdd := maxLatency - nodeLatency
      (if latencyToAdd = 0 then node else makeLatencyAudioNode node latencyToAdd)
        :: addLatencies maxLatency rest

/-- The constructor `SummingAudioNode (inputs)`. -/
def makeSummingAudioNode (inputs : List AudioNode) : AudioNode :=
  let maxLatency := (AudioNode.summingAudioNode inputs).getAudioNodeProperties.latencyNumSamples
  .summingAudioNode (addLatencies maxLatency inputs)

/-- The member `nodes` of a summing node (its direct inputs). -/
def directInputs : AudioNode → List AudioNode
  | .source _ _ => []
  | .latencyAudioNode input _ _ => [input]
  | .summingAudioNode nodes => nodes

mutual
/-- Modelled from the spec: preparation (section 4.7, step 5) reaches every node
of the tree; the walk itself belongs to the runtime, not to `UtilityNodes.h`.
A latency node runs `LatencyAudioNode::prepareToPlay`. -/
def prepareToPlay (blockSize : Nat) : AudioNode → AudioNode
  | .source props output => .source props output
  | .latencyAudioNode input latencyNumSamples fifo =>
      .latencyAudioNode (prepareToPlay blockSize input) latencyNumSamples
        (LatencyAudioNode.prepareToPlay
          (LatencyAudioNode.getAudioNodeProperties input.getAudioNodeProperties
            latencyNumSamples).numberOfChannels
          latencyNumSamples blockSize fifo)
  | .summingAudioNode nodes => .summingAudioNode (prepareAll blockSize nodes)
/-- Preparation of a list of nodes. -/
def prepareAll (blockSize : Nat) : List AudioNode → List AudioNode
  | [] => []
  | node :: rest => prepareToPlay blockSize node :: prepareAll blockSize rest
end

mutual
/-- Modelled from the spec: one block of the executor (section 4.8) on a tree.
Every input is processed before the node that reads it, each node's output slot
has `numberOfChannels` channels (section 3) and is cleared before the node's
`process` runs on it. Returns the node after the block and its processed
output. -/
def processBlock (numSamples : Nat) : AudioNode → AudioNode × AudioBlock
  | .source props [] => (.source props [], AudioBlock.zero props.numberOfChannels numSamples)
  | .source props (block :: rest) => (.source props rest, block)
  | .latencyAudioNode input latencyNumSamples fifo =>
      let r := processBlock numSamples input
      let p := LatencyAudioNode.process fifo r.2
        (AudioBlock.zero
          (LatencyAudioNode.getAudioNodeProperties input.getAudioNodeProperties
            latencyNumSamples).numberOfChannels
          numSamples)
      (.latencyAudioNode r.1 latencyNumSamples p.1, p.2)
  | .summingAudioNode nodes =>
      let rs := processAll numSamples nodes
      (.summingAudioNode rs.1,
       SummingAudioNode.process rs.2
         (AudioBlock.zero (AudioNode.summingAudioNode nodes).getAudioNodeProperties.numberOfChannels
           numSamples))
/-- One block on each node of a list: the nodes after the block and their outputs. -/
def processAll (numSamples : Nat) : List AudioNode → List AudioNode × List AudioBlock
  | [] => ([], [])
  | node :: rest =>
      let r := processBlock numSamples node
      let rs := processAll numSamples rest
      (r.1 :: rs.1, r.2 :: rs.2)
end

/-- Successive blocks of the executor, of the given sizes: the root's outputs. -/
def render : AudioNode → List Nat → List AudioBlock
  | _, [] => []
  | node, numSamples :: rest =>
      let r := processBlock numSamples node
      r.2 :: render r.1 rest

/-- The value `m` is the maximum of the declared latencies of the nodes of a list. -/
def IsMaxLatency (inputs : List AudioNode) (m : Int) : Prop :=
  (∀ node ∈ inputs, node.latency ≤ m) ∧ ∃ node ∈ inputs, node.latency = m

/-- The value `m` is the maximum of the declared channel counts of the nodes of a list. -/
def IsMaxChannels (inputs : List AudioNode) (m : Nat) : Prop :=
  (∀ node ∈ inputs, node.getAudioNodeProperties.numberOfChannels ≤ m) ∧
    ∃ node ∈ inputs, node.getAudioNodeProperties.numberOfChannels = m

mutual
/-- The largest total of configured delays along a path from a leaf to the node:
the delay, in samples, that the longest path applies. -/
def maxPathDelay : AudioNode → Int
  | .source _ _ => 0
  | .latencyAudioNode input latencyNumSamples _ => input.maxPathDelay + latencyNumSamples
  | .summingAudioNode nodes => maxPathDelayOver nodes
/-- The largest `maxPathDelay` among the nodes of a list. -/
def maxPathDelayOver : List AudioNode → Int
  | [] => 0
  | node :: rest => max node.maxPathDelay (maxPathDelayOver rest)
end

end AudioNode

/-! ## The alignment scenario -/

/-- One input of the summing node in the alignment scenario: a zero-latency
source that emits the blocks `output`, wrapped in one `LatencyAudioNode` of
`delay` samples when a delay is given, and left as is otherwise. -/
structure Branch where
  hasAudio : Bool
  hasMidi : Bool
  output : List AudioBlock
  delay : Option Nat

namespace Branch

/-- The zero-latency source of a branch. -/
def source (numChannels : Nat) (b : Branch) : AudioNode :=
  .source
    { hasAudio := b.hasAudio, hasMidi := b.hasMidi, numberOfChannels := numChannels,
      latencyNumSamples := 0 }
    b.output

/-- The node handed to the constructor of the summing node for a branch. -/
def node (numChannels : Nat) (b : Branch) : AudioNode :=
  match b.delay with
  | none => b.source numChannels
  | some L => AudioNode.makeLatencyAudioNode (b.source numChannels) (L : Int)

/-- The delay of a branch, 0 when it is not wrapped. -/
def latency (b : Branch) : Nat := b.delay.getD 0

end Branch

/-! ## Scheduling -/

/-- A pointer to a node held inside a tree, as the path of child indices that
leads to it from the node at hand: `[]` is the node itself, `k :: p` is the node
`p` below its direct input number `k`. -/
abbrev NodeId := List Nat

namespace AudioNode

/-- The node a pointer designates, when the tree has one there. -/
def nodeAt : AudioNode → NodeId → Option AudioNode
  | node, [] => some node
  | node, k :: rest =>
      match node.directInputs[k]? with
      | none => none
      | some child => child.nodeAt rest

mutual
/-- The virtual `getAllInputNodes()`: for a latency node `input` followed by the
list of `input`, for a summing node the same for each of `nodes` in turn. A node
of another class without inputs returns an empty list. -/
def getAllInputNodes : AudioNode → List NodeId
  | .source _ _ => []
  | .latencyAudioNode input _ _ => [0] :: (input.getAllInputNodes).map (fun p => 0 :: p)
  | .summingAudioNode nodes => getAllInputNodesFrom 0 nodes
/-- The loop of `SummingAudioNode::getAllInputNodes` from input number `k` on. -/
def getAllInputNodesFrom : Nat → List AudioNode → List NodeId
  | _, [] => []
  | k, node :: rest =>
      ([k] :: (node.getAllInputNodes).map (fun p => k :: p)) ++ getAllInputNodesFrom (k + 1) rest
end

/-- The loop of `SummingAudioNode::isReadyToProcess` from input number `k` on;
`hasProcessed` reads the flag of a node, named from the summing node. -/
def allProcessedFrom (hasProcessed : NodeId → Bool) : Nat → List AudioNode → Bool
  | _, [] => true
  | k, _ :: rest =>
      if !hasProcessed [k] then false else allProcessedFrom hasProcessed (k + 1) rest

/-- The virtual `isReadyToProcess()`. `hasProcessed` reads the per-node flag
behind `hasProcessed()`, a member of the base class; nodes are named from the
node at hand. A node of another class without inputs is always ready. -/
def isReadyToProcess (hasProcessed : NodeId → Bool) : AudioNode → Bool
  | .source _ _ => true
  | .latencyAudioNode _ _ _ => hasProcessed [0]
  | .summingAudioNode nodes => allProcessedFrom hasProcessed 0 nodes

/-- A state of the flags, read from `node`, in which every input of `node` that
has processed has all of its own inputs processed. -/
def DownwardClosed (node : AudioNode) (hasProcessed : NodeId → Bool) : Prop :=
  ∀ q ∈ node.getAllInputNodes, hasProcessed q = true →
    ∀ d, node.nodeAt q = some d → ∀ r ∈ d.getAllInputNodes, hasProcessed (q ++ r) = true

/-- Modelled from the spec: the states of the flags the executor reaches within
one block (section 4.8). The block starts with every flag cleared; a step picks
any node of the tree that has not processed and whose `isReadyToProcess()` is
true, processes it and sets its flag. -/
inductive Reachable (root : AudioNode) : (NodeId → Bool) → Prop where
  | start : Reachable root (fun _ => false)
  | step (flags : NodeId → Bool) (p : NodeId) (node : AudioNode) :
      Reachable root flags → root.nodeAt p = some node → flags p = false →
      node.isReadyToProcess (fun q => flags (p ++ q)) = true →
      Reachable root (fun q => if q = p then true else flags q)

/-- Pre-order on the nodes of a tree: a node comes before the nodes below it,
and everything below an earlier input of a node comes before everything below a
later input of that node. -/
inductive Before : NodeId → NodeId → Prop where
  | below (p : NodeId) (k : Nat) (q : NodeId) : Before p (p ++ k :: q)
  | left (p : NodeId) (j k : Nat) (q r : NodeId) : j < k → Before (p ++ j :: q) (p ++ k :: r)

/-- The node after the executor has run blocks of the given sizes on it. -/
def advance : AudioNode → List Nat → AudioNode
  | node, [] => node
  | node, numSamples :: rest => advance (processBlock numSamples node).1 rest

end AudioNode

/-! ## MIDI -/

/-- Modelled from the spec: a MIDI event of a block, a sample offset within the
block and the raw message (section 6). -/
structure MidiEvent where
  sampleOffset : Nat
  message : Nat
deriving DecidableEq

/-- Modelled from the spec: the buffers of a process call, an audio block and a
MIDI buffer (ProcessBuffers, section 3). -/
structure ProcessBuffers where
  audio : AudioBlock
  midi : List MidiEvent
deriving DecidableEq

namespace ProcessBuffers

/-- The buffers of a node as the executor hands them in: cleared. -/
def cleared (numChannels numSamples : Nat) : ProcessBuffers :=
  { audio := AudioBlock.zero numChannels numSamples, midi := [] }

end ProcessBuffers

namespace LatencyAudioNode

/-- `LatencyAudioNode::process` on both buffers of the context: the audio goes
through the ring as in `process`; the MIDI buffer of the context is not touched
(`//TODO: MIDI`), whatever MIDI the input has produced. -/
def processContext (fifo : AudioFifo) (inputOutput pc : ProcessBuffers) :
    AudioFifo × ProcessBuffers :=
  let r := process fifo inputOutput.audio pc.audio
  (r.1, { audio := r.2, midi := pc.midi })

/-- A sequence of `processContext` calls, each on cleared buffers of the shape of
the input's audio block. -/
def runContext (numberOfChannels : Nat) :
    AudioFifo → List ProcessBuffers → AudioFifo × List ProcessBuffers
  | fifo, [] => (fifo, [])
  | fifo, inputOutput :: rest =>
      let r := processContext fifo inputOutput
        (ProcessBuffers.cleared numberOfChannels (AudioBlock.getNumSamples inputOutput.audio))
      let rs := runContext numberOfChannels r.1 rest
      (rs.1, r.2 :: rs.2)

/-- The three `jassert`s of `LatencyAudioNode::process`, in their order: the ring
has the channel count of the input's block; after the write at least as many
frames are ready as the output block has; input and output block have the same
number of frames. -/
def assertionsHold (fifo : AudioFifo) (inputBuffer outputBlock : AudioBlock) : Prop :=
  fifo.getNumChannels = AudioBlock.getNumChannels inputBuffer ∧
  AudioBlock.getNumSamples outputBlock ≤ (fifo.write inputBuffer).getNumReady ∧
  AudioBlock.getNumSamples inputBuffer = AudioBlock.getNumSamples outputBlock

/-- The write of a block is accepted: its frames fit in the free space of the ring. -/
def writeFits (fifo : AudioFifo) (inputBuffer : AudioBlock) : Prop :=
  AudioBlock.getNumSamples inputBuffer ≤ fifo.getFreeSpace

end LatencyAudioNode

namespace SummingAudioNode

/-- `SummingAudioNode::process` on both buffers of the context: the audio of the
inputs is added as in `process`; the MIDI buffer of the context is not touched
(`//TODO:  MIDI`), whatever MIDI the inputs have produced. -/
def processContext (inputOutputs : List ProcessBuffers) (pc : ProcessBuffers) : ProcessBuffers :=
  { audio := process (inputOutputs.map (fun b => b.audio)) pc.audio, midi := pc.midi }

end SummingAudioNode

/-! ## Send and return -/

namespace AudioNode

/-- Modelled from the spec: `SendAudioNode` is declared in the graph module, not in
`UtilityNodes.h`. A send node passes its upstream through unchanged and offers
it on its bus (section 4.6): seen from a return node on that bus it is a node
that declares the properties of the sender and holds, block by block, what the
sender has produced for that block. -/
def senderTap (props : AudioNodeProperties) (output : List AudioBlock) : AudioNode :=
  .source props output

/-- Modelled from the spec: `ReturnAudioNode` is declared in the graph module, not
in `UtilityNodes.h`. Section 4.6: the effective upstream of a return node is its
direct upstream merged with the senders on its bus; its properties are the OR
and the maxima over direct upstream and senders; it inserts latency
compensation on the shorter paths, as the construction of the summing node does
(section 4.5), and its process adds the output of each sender into its output
alongside its direct upstream. -/
def makeReturnAudioNode (direct : AudioNode) (senders : List AudioNode) : AudioNode :=
  makeSummingAudioNode (direct :: senders)

end AudioNode

/-! # Theorems -/

open AudioNode

/-! ## Declared properties -/

section Properties

theorem sumProperties_hasAudio (nodes : List AudioNode) (props : AudioNodeProperties) :
    (sumProperties props nodes).hasAudio
      = (props.hasAudio || nodes.any (fun n => n.getAudioNodeProperties.hasAudio)) := by
  induction nodes generalizing props with
  | nil => simp [sumProperties]
  | cons node rest ih => simp [sumProperties, ih, Bool.or_assoc]

theorem sumProperties_hasMidi (nodes : List AudioNode) (props : AudioNodeProperties) :
    (sumProperties props nodes).hasMidi
      = (props.hasMidi || nodes.any (fun n => n.getAudioNodeProperties.hasMidi)) := by
  induction nodes generalizing props with
  | nil => simp [sumProperties]
  | cons node rest ih => simp [sumProperties, ih, Bool.or_assoc]

theorem sumProperties_numberOfChannels (nodes : List AudioNode) (props : AudioNodeProperties) :
    (sumProperties props nodes).numberOfChannels
      = (nodes.map (fun n => n.getAudioNodeProperties.numberOfChannels)).foldl max
          props.numberOfChannels := by
  induction nodes generalizing props with
  | nil => simp [sumProperties]
  | cons node rest ih => simp [sumProperties, ih]

theorem sumProperties_latency (nodes : List AudioNode) (props : AudioNodeProperties) :
    (sumProperties props nodes).latencyNumSamples
      = (nodes.map latency).foldl max props.latencyNumSamples := by
  induction nodes generalizing props with
  | nil => simp [sumProperties]
  | cons node rest ih => simp [sumProperties, ih, latency]

/-- A left fold of `max` is the start value or an element, and bounds both. -/
theorem foldl_max_spec {α : Type} [LinearOrder α] (l : List α) (a : α) :
    a ≤ l.foldl max a ∧ (∀ x ∈ l, x ≤ l.foldl max a) ∧
      (l.foldl max a = a ∨ l.foldl max a ∈ l) := by
  induction l generalizing a with
  | nil => simp
  | cons x xs ih =>
    obtain ⟨h1, h2, h3⟩ := ih (max a x)
    refine ⟨le_trans (le_max_left a x) h1, ?_, ?_⟩
    · intro y hy
      rcases List.mem_cons.mp hy with rfl | hy
      · exact le_trans (le_max_right a y) h1
      · exact h2 y hy
    · simp only [List.foldl_cons, List.mem_cons]
      rcases h3 with h3 | h3
      · rcases max_cases a x with ⟨hm, _⟩ | ⟨hm, _⟩
        · left; rw [h3, hm]
        · right; left; rw [h3, hm]
      · right; right; exact h3

/-- A left fold of `max` only depends on the maximum reached. -/
theorem foldl_max_eq_of_isMax {α : Type} [LinearOrder α] (l : List α) (a m : α)
    (ha : a ≤ m) (hle : ∀ x ∈ l, x ≤ m) (hex : m ∈ l) : l.foldl max a = m := by
  obtain ⟨h1, h2, h3⟩ := foldl_max_spec l a
  apply le_antisymm
  · rcases h3 with h3 | h3
    · rw [h3]; exact ha
    · exact hle _ h3
  · exact h2 m hex

/-- The value of `maxLatency` in the constructor of `SummingAudioNode`. -/
theorem maxLatency_eq (inputs : List AudioNode) :
    (AudioNode.summingAudioNode inputs).getAudioNodeProperties.latencyNumSamples
      = (inputs.map latency).foldl max 0 := by
  simp [getAudioNodeProperties, sumProperties_latency]

theorem maxLatency_of_isMax (inputs : List AudioNode) (m : Int)
    (hnn : ∀ node ∈ inputs, 0 ≤ node.latency) (hm : IsMaxLatency inputs m) :
    (AudioNode.summingAudioNode inputs).getAudioNodeProperties.latencyNumSamples = m := by
  rw [maxLatency_eq]
  obtain ⟨hle, n, hn, hnm⟩ := hm
  apply foldl_max_eq_of_isMax
  · rw [← hnm]; exact hnn n hn
  · intro x hx
    obtain ⟨y, hy, rfl⟩ := List.mem_map.mp hx
    exact hle y hy
  · exact List.mem_map.mpr ⟨n, hn, hnm⟩

theorem getAudioNodeProperties_makeLatencyAudioNode (input : AudioNode) (L : Int) :
    (makeLatencyAudioNode input L).getAudioNodeProperties
      = { input.getAudioNodeProperties with
          latencyNumSamples := max input.getAudioNodeProperties.latencyNumSamples L } := by
  simp [makeLatencyAudioNode, getAudioNodeProperties, LatencyAudioNode.getAudioNodeProperties]

theorem addLatencies_length (m : Int) (inputs : List AudioNode) :
    (addLatencies m inputs).length = inputs.length := by
  induction inputs with
  | nil => simp [addLatencies]
  | cons node rest ih => simp [addLatencies, ih]

theorem addLatencies_getElem? (m : Int) (inputs : List AudioNode) (i : Nat) :
    (addLatencies m inputs)[i]? = (inputs[i]?).map (fun node =>
      if m - node.latency = 0 then node else makeLatencyAudioNode node (m - node.latency)) := by
  induction inputs generalizing i with
  | nil => simp [addLatencies]
  | cons node rest ih =>
    cases i with
    | zero => simp [addLatencies, latency]
    | succ i => simp [addLatencies, ih]

theorem addLatencies_eq_map (m : Int) (inputs : List AudioNode) :
    addLatencies m inputs = inputs.map (fun node =>
      if m - node.latency = 0 then node else makeLatencyAudioNode node (m - node.latency)) := by
  induction inputs with
  | nil => simp [addLatencies]
  | cons node rest ih => simp [addLatencies, ih, latency]

/-- What a direct input declares once the constructor has visited it. -/
theorem latency_added (m : Int) (node : AudioNode) :
    (if m - node.latency = 0 then node
      else makeLatencyAudioNode node (m - node.latency)).latency
      = if m - node.latency = 0 then node.latency else max node.latency (m - node.latency) := by
  split
  · rfl
  · simp [latency, getAudioNodeProperties_makeLatencyAudioNode]

theorem props_added (m : Int) (node : AudioNode) :
    let w := if m - node.latency = 0 then node else makeLatencyAudioNode node (m - node.latency)
    w.getAudioNodeProperties.hasAudio = node.getAudioNodeProperties.hasAudio ∧
    w.getAudioNodeProperties.hasMidi = node.getAudioNodeProperties.hasMidi ∧
    w.getAudioNodeProperties.numberOfChannels = node.getAudioNodeProperties.numberOfChannels := by
  intro w
  simp only [w]
  split
  · simp
  · simp [getAudioNodeProperties_makeLatencyAudioNode]

end Properties

open AudioNode

section Construction

/-- For non-negative declared latencies the constructor's `maxLatency` is their maximum. -/
theorem isMaxLatency_maxLatency (inputs : List AudioNode) (hne : inputs ≠ [])
    (hnn : ∀ node ∈ inputs, 0 ≤ node.latency) :
    IsMaxLatency inputs
      (AudioNode.summingAudioNode inputs).getAudioNodeProperties.latencyNumSamples := by
  rw [maxLatency_eq]
  obtain ⟨h1, h2, h3⟩ := foldl_max_spec (inputs.map latency) 0
  refine ⟨fun node hn => h2 _ (List.mem_map.mpr ⟨node, hn, rfl⟩), ?_⟩
  rcases h3 with h3 | h3
  · obtain ⟨node, rest, rfl⟩ := List.exists_cons_of_ne_nil hne
    refine ⟨node, List.mem_cons_self _ _, ?_⟩
    have hle := h2 node.latency (List.mem_map.mpr ⟨node, List.mem_cons_self _ _, rfl⟩)
    have hge := hnn node (List.mem_cons_self _ _)
    rw [h3] at hle ⊢
    exact le_antisymm hle hge
  · obtain ⟨node, hn, hnm⟩ := List.mem_map.mp h3
    exact ⟨node, hn, hnm⟩

/-- The declared properties of a summing node in terms of the list handed to its constructor. -/
theorem summing_properties (inputs : List AudioNode) (hne : inputs ≠ [])
    (hnn : ∀ node ∈ inputs, 0 ≤ node.latency) :
    (makeSummingAudioNode inputs).getAudioNodeProperties.hasAudio
        = inputs.any (fun n => n.getAudioNodeProperties.hasAudio) ∧
    (makeSummingAudioNode inputs).getAudioNodeProperties.hasMidi
        = inputs.any (fun n => n.getAudioNodeProperties.hasMidi) ∧
    IsMaxChannels inputs (makeSummingAudioNode inputs).getAudioNodeProperties.numberOfChannels ∧
    IsMaxLatency inputs (makeSummingAudioNode inputs).getAudioNodeProperties.latencyNumSamples := by
  have hmax := isMaxLatency_maxLatency inputs hne hnn
  set m := (AudioNode.summingAudioNode inputs).getAudioNodeProperties.latencyNumSamples with hm
  have hprops : (makeSummingAudioNode inputs).getAudioNodeProperties
      = sumProperties
          { hasAudio := false, hasMidi := false, numberOfChannels := 0, latencyNumSamples := 0 }
          (addLatencies m inputs) := by
    simp [makeSummingAudioNode, getAudioNodeProperties, hm]
  rw [hprops, addLatencies_eq_map]
  refine ⟨?_, ?_, ?_, ?_⟩
  · rw [sumProperties_hasAudio]
    simp only [Bool.false_or, List.any_map]
    congr 1
    funext node
    exact (props_added m node).1
  · rw [sumProperties_hasMidi]
    simp only [Bool.false_or, List.any_map]
    congr 1
    funext node
    exact (props_added m node).2.1
  · rw [sumProperties_numberOfChannels, List.map_map]
    have hfun : ((fun n : AudioNode => n.getAudioNodeProperties.numberOfChannels) ∘ fun node =>
        if m - node.latency = 0 then node else makeLatencyAudioNode node (m - node.latency))
        = fun n : AudioNode => n.getAudioNodeProperties.numberOfChannels := by
      funext node
      exact (props_added m node).2.2
    rw [hfun]
    obtain ⟨h1, h2, h3⟩ :=
      foldl_max_spec (inputs.map fun n => n.getAudioNodeProperties.numberOfChannels) 0
    refine ⟨fun node hn => h2 _ (List.mem_map.mpr ⟨node, hn, rfl⟩), ?_⟩
    rcases h3 with h3 | h3
    · obtain ⟨node, rest, rfl⟩ := List.exists_cons_of_ne_nil hne
      refine ⟨node, List.mem_cons_self _ _, ?_⟩
      have hle := h2 node.getAudioNodeProperties.numberOfChannels
        (List.mem_map.mpr ⟨node, List.mem_cons_self _ _, rfl⟩)
      rw [h3] at hle ⊢
      exact Nat.le_zero.mp hle
    · obtain ⟨node, hn, hnm⟩ := List.mem_map.mp h3
      exact ⟨node, hn, hnm⟩
  · rw [sumProperties_latency, List.map_map]
    obtain ⟨hle, top, htop, htopm⟩ := hmax
    have hm0 : 0 ≤ m := by rw [← htopm]; exact hnn top htop
    have hfold : List.foldl max 0 (List.map (latency ∘ fun node =>
        if m - node.latency = 0 then node else makeLatencyAudioNode node (m - node.latency))
        inputs) = m := by
      apply foldl_max_eq_of_isMax _ _ _ hm0
      · intro x hx
        obtain ⟨node, hn, rfl⟩ := List.mem_map.mp hx
        have h1 := hle node hn
        have h2 := hnn node hn
        simp only [Function.comp, latency_added]
        split <;> simp <;> omega
      · refine List.mem_map.mpr ⟨top, htop, ?_⟩
        simp [Function.comp, htopm]
    simp only [] at hfold
    rw [hfold]
    exact ⟨hle, top, htop, htopm⟩

/-- The direct inputs of a summing node in terms of the list handed to its constructor. -/
theorem directInputs_makeSummingAudioNode (inputs : List AudioNode) :
    (makeSummingAudioNode inputs).directInputs
      = addLatencies
          (AudioNode.summingAudioNode inputs).getAudioNodeProperties.latencyNumSamples inputs := by
  simp [makeSummingAudioNode, directInputs]

theorem constructor_wraps (inputs : List AudioNode)
    (hnn : ∀ node ∈ inputs, 0 ≤ node.latency) :
    (makeSummingAudioNode inputs).directInputs.length = inputs.length ∧
    ∀ Lmax : Int, IsMaxLatency inputs Lmax →
      ∀ (i : Nat) (node : AudioNode), inputs[i]? = some node →
        (node.latency < Lmax →
          (makeSummingAudioNode inputs).directInputs[i]?
            = some (makeLatencyAudioNode node (Lmax - node.latency))) ∧
        (node.latency = Lmax →
          (makeSummingAudioNode inputs).directInputs[i]? = some node) := by
  rw [directInputs_makeSummingAudioNode]
  refine ⟨addLatencies_length _ _, ?_⟩
  intro Lmax hmax i node hi
  rw [maxLatency_of_isMax inputs Lmax hnn hmax, addLatencies_getElem?, hi]
  constructor
  · intro hlt
    have : ¬ (Lmax - node.latency = 0) := by omega
    simp [this]
  · intro heq
    simp [heq]

end Construction

/-! ## Blocks -/

section Blocks

open AudioBlock

theorem addChannel_nil_right (d : List Sample) : addChannel d [] = d := by
  cases d <;> rfl

theorem addChannel_length (d s : List Sample) : (addChannel d s).length = d.length := by
  induction d generalizing s with
  | nil => rfl
  | cons x xs ih => cases s <;> simp [addChannel, ih]

theorem addChannel_getD (d s : List Sample) (i : Nat) (hi : i < d.length) :
    (addChannel d s).getD i 0 = d.getD i 0 + s.getD i 0 := by
  induction d generalizing s i with
  | nil => simp at hi
  | cons x xs ih =>
    cases s with
    | nil => simp [addChannel]
    | cons y ys =>
      cases i with
      | zero => simp [addChannel]
      | succ i =>
        simp only [addChannel, List.getD_cons_succ]
        exact ih ys i (by simpa using hi)

theorem addChannel_replicate_zero (n : Nat) (s : List Sample) (h : n ≤ s.length) :
    addChannel (List.replicate n 0) s = s.take n := by
  induction n generalizing s with
  | zero => simp [addChannel]
  | succ n ih =>
    cases s with
    | nil => simp at h
    | cons y ys =>
      simp only [List.replicate_succ, addChannel, List.take_succ_cons, zero_add]
      rw [ih ys (by simpa using h)]

theorem add_length (d s : AudioBlock) : (AudioBlock.add d s).length = d.length := by
  induction d generalizing s with
  | nil => rfl
  | cons x xs ih => cases s <;> simp [AudioBlock.add, ih]

theorem add_getD (d s : AudioBlock) (c : Nat) :
    (AudioBlock.add d s).getD c [] = addChannel (d.getD c []) (s.getD c []) := by
  induction d generalizing s c with
  | nil => simp [AudioBlock.add, addChannel]
  | cons x xs ih =>
    cases s with
    | nil => simp [AudioBlock.add, addChannel_nil_right]
    | cons y ys =>
      cases c with
      | zero => simp [AudioBlock.add]
      | succ c => simpa [AudioBlock.add] using ih ys c

theorem getSample_add (d s : AudioBlock) (c i : Nat) (hi : i < (d.getD c []).length) :
    getSample (AudioBlock.add d s) c i = getSample d c i + getSample s c i := by
  simp only [getSample, add_getD]
  exact addChannel_getD _ _ i hi

theorem add_hasShape (d s : AudioBlock) (C n : Nat) (hd : HasShape d C n) :
    HasShape (AudioBlock.add d s) C n := by
  obtain ⟨h1, h2⟩ := hd
  refine ⟨by rw [add_length, h1], ?_⟩
  intro ch hch
  obtain ⟨c, hc, rfl⟩ := List.getElem_of_mem hch
  have hc2 : c < d.length := by rwa [add_length] at hc
  have := add_getD d s c
  rw [List.getD_eq_getElem _ _ hc, List.getD_eq_getElem _ _ hc2] at this
  rw [this, addChannel_length]
  exact h2 _ (List.getElem_mem _)

theorem zero_hasShape (C n : Nat) : HasShape (AudioBlock.zero C n) C n := by
  refine ⟨by simp [AudioBlock.zero], ?_⟩
  intro ch hch
  simp only [AudioBlock.zero] at hch
  rw [(List.mem_replicate.mp hch).2]
  simp

theorem add_zero_left (s : AudioBlock) (C n : Nat) (hs : HasShape s C n) :
    AudioBlock.add (AudioBlock.zero C n) s = s := by
  induction s generalizing C with
  | nil =>
    obtain ⟨h1, _⟩ := hs
    simp at h1
    subst h1
    rfl
  | cons y ys ih =>
    obtain ⟨h1, h2⟩ := hs
    cases C with
    | zero => simp at h1
    | succ C =>
      have hy : y.length = n := h2 y (List.mem_cons_self _ _)
      have hys : HasShape ys C n :=
        ⟨by simpa using h1, fun ch hch => h2 ch (List.mem_cons_of_mem _ hch)⟩
      have ih2 := ih C hys
      simp only [AudioBlock.zero] at ih2 ⊢
      simp only [List.replicate_succ, AudioBlock.add]
      rw [ih2, addChannel_replicate_zero n y (by omega), ← hy, List.take_length]

theorem getNumSamples_of_hasShape (b : AudioBlock) (C n : Nat) (hb : HasShape b C n) :
    HasShape b C (getNumSamples b) ∧ (0 < C → getNumSamples b = n) ∧ getNumSamples b ≤ n := by
  obtain ⟨h1, h2⟩ := hb
  cases b with
  | nil =>
    refine ⟨⟨h1, by simp⟩, ?_, by simp [getNumSamples]⟩
    intro hC
    simp at h1
    omega
  | cons y ys =>
    have hy : y.length = n := h2 y (List.mem_cons_self _ _)
    simp only [getNumSamples, hy]
    exact ⟨⟨h1, h2⟩, fun _ => trivial, le_refl _⟩

theorem zero_congr (b : AudioBlock) (C n : Nat) (hb : HasShape b C n) :
    AudioBlock.zero C n = AudioBlock.zero C (getNumSamples b) := by
  rcases Nat.eq_zero_or_pos C with h | h
  · subst h; rfl
  · rw [(getNumSamples_of_hasShape b C n hb).2.1 h]

theorem getNumSamples_zero (C n : Nat) (hC : 0 < C) : getNumSamples (AudioBlock.zero C n) = n := by
  cases C with
  | zero => omega
  | succ C => simp [AudioBlock.zero, List.replicate_succ, getNumSamples]

theorem getD_zipWith_append (qs bs : List (List Sample)) (c : Nat) (h : qs.length = bs.length) :
    (List.zipWith (fun q ch => q ++ ch) qs bs).getD c [] = qs.getD c [] ++ bs.getD c [] := by
  induction qs generalizing bs c with
  | nil =>
    cases bs with
    | nil => simp
    | cons _ _ => simp at h
  | cons q qs ih =>
    cases bs with
    | nil => simp at h
    | cons b bs =>
      cases c with
      | zero => simp
      | succ c => simpa using ih bs c (by simpa using h)

theorem concatChannel_nil (c : Nat) : concatChannel [] c = [] := rfl

theorem concatChannel_cons (b : AudioBlock) (bs : List AudioBlock) (c : Nat) :
    concatChannel (b :: bs) c = b.getD c [] ++ concatChannel bs c := by
  simp [concatChannel]

theorem getD_length_of_hasShape (b : AudioBlock) (C n c : Nat) (hb : HasShape b C n)
    (hc : c < C) : (b.getD c []).length = n := by
  obtain ⟨h1, h2⟩ := hb
  rw [List.getD_eq_getElem _ _ (by omega)]
  exact h2 _ (List.getElem_mem _)

theorem concatChannel_length (bs : List AudioBlock) (C : Nat) (ns : List Nat) (c : Nat)
    (hs : Shapes bs C ns) (hc : c < C) : (concatChannel bs c).length = ns.sum := by
  induction hs with
  | nil => rfl
  | cons hb _ ih =>
    rw [concatChannel_cons, List.length_append, ih, List.sum_cons,
      getD_length_of_hasShape _ _ _ _ hb hc]

end Blocks

/-! ## The latency node -/

section Latency

open AudioBlock

/-- Within the range of `int` the two additions of `prepareToPlay` are exact. -/
theorem wrapInt_capacity (L B : Nat) (hfit : L + B + 1 ≤ INT_MAX) :
    (wrapInt (wrapInt ((L : Int) + (B : Int)) + 1)).toNat = L + B + 1 := by
  unfold INT_MAX at hfit
  unfold wrapInt
  omega

theorem prepareToPlay_eq (C L B : Nat) (fifo : AudioFifo) (hfit : L + B + 1 ≤ INT_MAX) :
    LatencyAudioNode.prepareToPlay C (L : Int) B fifo
      = { size := L + B + 1, numReady := L,
          channels := List.replicate C (List.replicate L 0) } := by
  have h1 := wrapInt_capacity L B hfit
  simp only [LatencyAudioNode.prepareToPlay, AudioFifo.setSize, AudioFifo.writeSilence,
    AudioFifo.getFreeSpace, h1, Int.toNat_ofNat]
  rw [if_pos (by omega)]
  simp

theorem prepareToPlay_primed (C L B : Nat) (fifo : AudioFifo) (hfit : L + B + 1 ≤ INT_MAX) :
    (LatencyAudioNode.prepareToPlay C (L : Int) B fifo).Primed C L B := by
  rw [prepareToPlay_eq C L B fifo hfit]
  refine ⟨rfl, rfl, by simp, ?_⟩
  intro q hq
  rw [(List.mem_replicate.mp hq).2]
  simp

/-- The frame counts of one `process` call: a write of `n` frames that fits, then
a read of `n` frames. -/
theorem process_counts (fifo : AudioFifo) (L B : Nat) (inputBuffer outputBlock : AudioBlock)
    (hsize : fifo.size = L + B + 1) (hready : fifo.numReady = L)
    (hsame : getNumSamples inputBuffer = getNumSamples outputBlock)
    (hB : getNumSamples outputBlock ≤ B) :
    (LatencyAudioNode.process fifo inputBuffer outputBlock).1.size = L + B + 1 ∧
    (LatencyAudioNode.process fifo inputBuffer outputBlock).1.numReady = L := by
  simp only [LatencyAudioNode.process, AudioFifo.write, AudioFifo.getFreeSpace, hsize, hready,
    hsame]
  rw [if_pos (by omega)]
  simp only [AudioFifo.readAdding]
  rw [if_pos (by omega)]
  simp

theorem processCalls_counts (L B : Nat) (calls : List (AudioBlock × AudioBlock))
    (fifo : AudioFifo) (hsize : fifo.size = L + B + 1) (hready : fifo.numReady = L)
    (hcalls : ∀ call ∈ calls,
      getNumSamples call.1 = getNumSamples call.2 ∧ getNumSamples call.2 ≤ B) :
    (LatencyAudioNode.processCalls fifo calls).size = L + B + 1 ∧
    (LatencyAudioNode.processCalls fifo calls).numReady = L := by
  induction calls generalizing fifo with
  | nil => exact ⟨hsize, hready⟩
  | cons call rest ih =>
    simp only [LatencyAudioNode.processCalls]
    obtain ⟨h1, h2⟩ := hcalls call (List.mem_cons_self _ _)
    obtain ⟨h3, h4⟩ := process_counts fifo L B call.1 call.2 hsize hready h1 h2
    exact ih _ h3 h4 (fun c hc => hcalls c (List.mem_cons_of_mem _ hc))

/-- One `process` call of a prepared latency node on a cleared output block. -/
theorem process_primed (fifo : AudioFifo) (C L B n : Nat) (b : AudioBlock)
    (hf : fifo.Primed C L B) (hb : HasShape b C n) (hn : n ≤ B) :
    (LatencyAudioNode.process fifo b (AudioBlock.zero C n)).1.Primed C L B ∧
    HasShape (LatencyAudioNode.process fifo b (AudioBlock.zero C n)).2 C n ∧
    ∀ c, (LatencyAudioNode.process fifo b (AudioBlock.zero C n)).2.getD c []
          ++ (LatencyAudioNode.process fifo b (AudioBlock.zero C n)).1.channels.getD c []
        = fifo.channels.getD c [] ++ b.getD c [] := by
  obtain ⟨hsize, hready, hlen, hq⟩ := hf
  rcases Nat.eq_zero_or_pos C with hC | hC
  · subst hC
    have hb0 : b = [] := List.length_eq_zero.mp hb.1
    have hc0 : fifo.channels = [] := List.length_eq_zero.mp hlen
    subst hb0
    have hp : LatencyAudioNode.process fifo [] (AudioBlock.zero 0 n) = (fifo, []) := by
      simp only [LatencyAudioNode.process, AudioFifo.write, AudioFifo.readAdding, getNumSamples,
        AudioBlock.zero, List.replicate_zero, Nat.zero_le, if_true, Nat.add_zero, Nat.sub_zero,
        hc0, List.zipWith_nil_right, List.map_nil, AudioBlock.add]
      cases fifo
      simp_all
    rw [hp]
    exact ⟨⟨hsize, hready, hlen, hq⟩, zero_hasShape 0 n, fun c => by simp [hc0]⟩
  · have hbn : getNumSamples b = n := (getNumSamples_of_hasShape b C n hb).2.1 hC
    have hzn : getNumSamples (AudioBlock.zero C n) = n := getNumSamples_zero C n hC
    have hwrite : fifo.write b = { fifo with
        numReady := L + n
        channels := List.zipWith (fun q ch => q ++ ch) fifo.channels b } := by
      simp only [AudioFifo.write, AudioFifo.getFreeSpace, hsize, hready, hbn]
      rw [if_pos (by omega)]
    have hlen1 : (List.zipWith (fun q ch => q ++ ch) fifo.channels b).length = C := by
      simp [hlen, hb.1]
    have hq1 : ∀ q ∈ List.zipWith (fun q ch => q ++ ch) fifo.channels b, q.length = L + n := by
      intro q hqm
      obtain ⟨c, hc, rfl⟩ := List.getElem_of_mem hqm
      rw [List.getElem_zipWith, List.length_append]
      rw [hq _ (List.getElem_mem _), hb.2 _ (List.getElem_mem _)]
    have hshape1 : HasShape
        ((List.zipWith (fun q ch => q ++ ch) fifo.channels b).map (fun q => q.take n)) C n := by
      refine ⟨by simp [hlen, hb.1], ?_⟩
      intro ch hch
      obtain ⟨q, hqm, rfl⟩ := List.mem_map.mp hch
      rw [List.length_take, hq1 q hqm]
      omega
    have hproc : LatencyAudioNode.process fifo b (AudioBlock.zero C n)
        = ({ fifo with
              numReady := L
              channels := (List.zipWith (fun q ch => q ++ ch) fifo.channels b).map
                (fun q => q.drop n) },
           (List.zipWith (fun q ch => q ++ ch) fifo.channels b).map (fun q => q.take n)) := by
      simp only [LatencyAudioNode.process, hwrite, AudioFifo.readAdding, hzn]
      rw [if_pos (by omega)]
      rw [add_zero_left _ C n hshape1]
      simp
    rw [hproc]
    refine ⟨⟨hsize, rfl, by simp [hlen, hb.1], ?_⟩, hshape1, ?_⟩
    · intro q hqm
      obtain ⟨q1, hq1m, rfl⟩ := List.mem_map.mp hqm
      rw [List.length_drop, hq1 q1 hq1m]
      omega
    · intro c
      have e1 := @List.getD_map _ _ (List.zipWith (fun q ch => q ++ ch) fifo.channels b)
        ([] : List Sample) c (fun q => q.take n)
      have e2 := @List.getD_map _ _ (List.zipWith (fun q ch => q ++ ch) fifo.channels b)
        ([] : List Sample) c (fun q => q.drop n)
      simp only [List.take_nil, List.drop_nil] at e1 e2
      simp only [e1, e2, List.take_append_drop]
      exact getD_zipWith_append _ _ c (by rw [hlen, hb.1])

/-- A run of a prepared latency node: whatever went in either came out or is
still in the ring, in order. -/
theorem run_primed (C L B : Nat) (ins : List AudioBlock) (ns : List Nat) (fifo : AudioFifo)
    (hf : fifo.Primed C L B) (hs : Shapes ins C ns) (hB : ∀ n ∈ ns, n ≤ B) :
    (LatencyAudioNode.run C fifo ins).1.Primed C L B ∧
    Shapes (LatencyAudioNode.run C fifo ins).2 C ns ∧
    ∀ c, concatChannel (LatencyAudioNode.run C fifo ins).2 c
          ++ (LatencyAudioNode.run C fifo ins).1.channels.getD c []
        = fifo.channels.getD c [] ++ concatChannel ins c := by
  induction hs generalizing fifo with
  | nil => exact ⟨hf, List.Forall₂.nil, fun c => by simp [LatencyAudioNode.run, concatChannel]⟩
  | @cons b n bs ns hb _ ih =>
    simp only [LatencyAudioNode.run]
    rw [← zero_congr b C n hb]
    obtain ⟨p1, p2, p3⟩ := process_primed fifo C L B n b hf hb (hB n (List.mem_cons_self _ _))
    obtain ⟨r1, r2, r3⟩ := ih _ p1 (fun m hm => hB m (List.mem_cons_of_mem _ hm))
    refine ⟨r1, List.Forall₂.cons p2 r2, ?_⟩
    intro c
    rw [concatChannel_cons, concatChannel_cons, List.append_assoc, r3 c, ← List.append_assoc,
      p3 c, List.append_assoc]

/-- The stream a prepared latency node emits: `L` frames of silence, then its input. -/
theorem run_stream (C L B : Nat) (ins : List AudioBlock) (ns : List Nat) (fifo0 : AudioFifo)
    (hfit : L + B + 1 ≤ INT_MAX) (hs : Shapes ins C ns) (hB : ∀ n ∈ ns, n ≤ B) (c : Nat)
    (hc : c < C) :
    concatChannel
        (LatencyAudioNode.run C (LatencyAudioNode.prepareToPlay C (L : Int) B fifo0) ins).2 c
      = (List.replicate L 0 ++ concatChannel ins c).take (concatChannel ins c).length := by
  obtain ⟨r1, r2, r3⟩ :=
    run_primed C L B ins ns _ (prepareToPlay_primed C L B fifo0 hfit) hs hB
  have h3 := r3 c
  have hq0 : (LatencyAudioNode.prepareToPlay C (L : Int) B fifo0).channels.getD c []
      = List.replicate L 0 := by
    rw [prepareToPlay_eq C L B fifo0 hfit]
    simp [List.getD_eq_getElem, hc]
  rw [hq0] at h3
  have hlenq : ((LatencyAudioNode.run C
      (LatencyAudioNode.prepareToPlay C (L : Int) B fifo0) ins).1.channels.getD c []).length
      = L := by
    obtain ⟨_, _, hl, hq⟩ := r1
    rw [List.getD_eq_getElem _ _ (by omega)]
    exact hq _ (List.getElem_mem _)
  have hlen := congrArg List.length h3
  simp only [List.length_append, List.length_replicate, hlenq] at hlen
  rw [← h3, List.take_append_of_le_length (by omega), List.take_of_length_le (by omega)]

/-- Index form of a stream delayed by `L` frames and cut to the length of the input. -/
theorem delayed_getD (L : Nat) (s : List Sample) (i : Nat) (hi : i < s.length) :
    (i < L → ((List.replicate L 0 ++ s).take s.length).getD i 0 = 0) ∧
    (L ≤ i → ((List.replicate L 0 ++ s).take s.length).getD i 0 = s.getD (i - L) 0) := by
  have e : ((List.replicate L (0 : Sample) ++ s).take s.length).getD i 0
      = (List.replicate L (0 : Sample) ++ s).getD i 0 := by
    simp only [List.getD_eq_getElem?_getD, List.getElem?_take, hi, if_true]
  rw [e]
  constructor
  · intro h
    rw [List.getD_append _ _ _ _ (by simpa using h)]
    simp [List.getD_eq_getElem?_getD, List.getElem?_replicate, h]
  · intro h
    rw [List.getD_append_right _ _ _ _ (by simpa using h)]
    simp

end Latency

/-! ## The summing node, one block -/

section SummingBlock

open AudioBlock

theorem process_getD_length (outs : List AudioBlock) (dest : AudioBlock) (c : Nat) :
    ((SummingAudioNode.process outs dest).getD c []).length = (dest.getD c []).length := by
  induction outs generalizing dest with
  | nil => rfl
  | cons o rest ih =>
    simp only [SummingAudioNode.process]
    rw [ih, add_getD, addChannel_length]

/-- After the loop of `SummingAudioNode::process` a sample of the destination is
what it was plus the samples of the inputs at the same place. -/
theorem getSample_process (outs : List AudioBlock) (dest : AudioBlock) (c i : Nat)
    (hi : i < (dest.getD c []).length) :
    getSample (SummingAudioNode.process outs dest) c i
      = getSample dest c i + (outs.map (fun b => getSample b c i)).sum := by
  induction outs generalizing dest with
  | nil => simp [SummingAudioNode.process]
  | cons o rest ih =>
    simp only [SummingAudioNode.process, List.map_cons, List.sum_cons]
    rw [ih _ (by rw [add_getD, addChannel_length]; exact hi), getSample_add _ _ _ _ hi]
    ring

theorem getSample_zero (C n c i : Nat) : getSample (AudioBlock.zero C n) c i = 0 := by
  simp only [getSample, AudioBlock.zero, List.getD_eq_getElem?_getD, List.getElem?_replicate]
  split
  · simp only [Option.getD_some, List.getElem?_replicate]
    split <;> rfl
  · rfl

theorem zero_getD_length (C n c : Nat) (hc : c < C) :
    ((AudioBlock.zero C n).getD c []).length = n :=
  getD_length_of_hasShape _ C n c (zero_hasShape C n) hc

end SummingBlock

/-! ## Trees over several blocks -/

section Trees

open AudioBlock AudioNode

mutual
theorem prepareToPlay_props (B : Nat) :
    ∀ node : AudioNode,
      (prepareToPlay B node).getAudioNodeProperties = node.getAudioNodeProperties
  | .source _ _ => rfl
  | .latencyAudioNode input L fifo => by
      simp only [prepareToPlay, getAudioNodeProperties]
      rw [prepareToPlay_props B input]
  | .summingAudioNode nodes => by
      simp only [prepareToPlay, getAudioNodeProperties]
      exact prepareAll_props B nodes _
theorem prepareAll_props (B : Nat) :
    ∀ (nodes : List AudioNode) (acc : AudioNodeProperties),
      sumProperties acc (prepareAll B nodes) = sumProperties acc nodes
  | [], _ => rfl
  | node :: rest, acc => by
      simp only [prepareAll, sumProperties]
      rw [prepareToPlay_props B node, prepareAll_props B rest]
end

mutual
theorem processBlock_props (n : Nat) :
    ∀ node : AudioNode,
      (processBlock n node).1.getAudioNodeProperties = node.getAudioNodeProperties
  | .source _ [] => rfl
  | .source _ (_ :: _) => rfl
  | .latencyAudioNode input L fifo => by
      simp only [processBlock, getAudioNodeProperties]
      rw [processBlock_props n input]
  | .summingAudioNode nodes => by
      simp only [processBlock, getAudioNodeProperties]
      exact processAll_props n nodes _
theorem processAll_props (n : Nat) :
    ∀ (nodes : List AudioNode) (acc : AudioNodeProperties),
      sumProperties acc (processAll n nodes).1 = sumProperties acc nodes
  | [], _ => rfl
  | node :: rest, acc => by
      simp only [processAll, sumProperties]
      rw [processBlock_props n node, processAll_props n rest]
end

theorem prepareAll_eq_map (B : Nat) (nodes : List AudioNode) :
    prepareAll B nodes = nodes.map (prepareToPlay B) := by
  induction nodes with
  | nil => rfl
  | cons node rest ih => simp [prepareAll, ih]

theorem processAll_fst (n : Nat) (nodes : List AudioNode) :
    (processAll n nodes).1 = nodes.map (fun d => (processBlock n d).1) := by
  induction nodes with
  | nil => rfl
  | cons node rest ih => simp [processAll, ih]

theorem processAll_snd (n : Nat) (nodes : List AudioNode) :
    (processAll n nodes).2 = nodes.map (fun d => (processBlock n d).2) := by
  induction nodes with
  | nil => rfl
  | cons node rest ih => simp [processAll, ih]

/-- A source emits its blocks in order, one per call. -/
theorem render_source (props : AudioNodeProperties) (x : List AudioBlock) (ns : List Nat)
    (h : x.length = ns.length) : render (.source props x) ns = x := by
  induction ns generalizing x with
  | nil =>
    cases x with
    | nil => rfl
    | cons _ _ => simp at h
  | cons n rest ih =>
    cases x with
    | nil => simp at h
    | cons b bs =>
      simp only [render, processBlock]
      rw [ih bs (by simpa using h)]

/-- What a latency node in a tree emits is `LatencyAudioNode.run` on what its
input emits. -/
theorem render_latency (C : Nat) (ns : List Nat) (input : AudioNode) (L : Int)
    (fifo : AudioFifo) (hC : input.getAudioNodeProperties.numberOfChannels = C)
    (hs : Shapes (render input ns) C ns) :
    render (.latencyAudioNode input L fifo) ns
      = (LatencyAudioNode.run C fifo (render input ns)).2 := by
  induction ns generalizing input fifo with
  | nil => rfl
  | cons n rest ih =>
    simp only [render, processBlock, LatencyAudioNode.run] at hs ⊢
    cases hs with
    | cons hb hrest =>
      have hz := zero_congr _ C n hb
      simp only [LatencyAudioNode.getAudioNodeProperties, hC]
      rw [← hz]
      congr 1
      exact ih _ _ (by rw [processBlock_props]; exact hC) hrest

end Trees

section SummingStream

open AudioBlock AudioNode

theorem render_cons (node : AudioNode) (n : Nat) (rest : List Nat) :
    render node (n :: rest)
      = (processBlock n node).2 :: render (processBlock n node).1 rest := rfl

/-- The stream a summing node emits is, sample by sample, the sum of the streams
of its direct inputs. -/
theorem summing_stream (C : Nat) (ns : List Nat) (nodes : List AudioNode)
    (hch : ∀ d ∈ nodes, Shapes (render d ns) C ns) (c i : Nat) (hc : c < C)
    (hcs : c < (AudioNode.summingAudioNode nodes).getAudioNodeProperties.numberOfChannels)
    (hi : i < ns.sum) :
    (concatChannel (render (.summingAudioNode nodes) ns) c).getD i 0
      = (nodes.map (fun d => (concatChannel (render d ns) c).getD i 0)).sum := by
  induction ns generalizing nodes i with
  | nil => simp at hi
  | cons n rest ih =>
    have hhead : ∀ d ∈ nodes, HasShape (processBlock n d).2 C n ∧
        Shapes (render (processBlock n d).1 rest) C rest := by
      intro d hd
      have h := hch d hd
      rw [render_cons] at h
      cases h with
      | cons hb hrest => exact ⟨hb, hrest⟩
    have hlen : ∀ d ∈ nodes, ((processBlock n d).2.getD c []).length = n :=
      fun d hd => getD_length_of_hasShape _ C n c (hhead d hd).1 hc
    rw [render_cons, concatChannel_cons]
    simp only [processBlock]
    have hS0 : ((SummingAudioNode.process (processAll n nodes).2
        (AudioBlock.zero (AudioNode.summingAudioNode nodes).getAudioNodeProperties.numberOfChannels
          n)).getD c []).length = n := by
      rw [process_getD_length, zero_getD_length _ _ _ hcs]
    rcases Nat.lt_or_ge i n with hin | hin
    · rw [List.getD_append _ _ _ _ (by rw [hS0]; exact hin)]
      have := getSample_process (processAll n nodes).2
        (AudioBlock.zero (AudioNode.summingAudioNode nodes).getAudioNodeProperties.numberOfChannels
          n) c i (by rw [zero_getD_length _ _ _ hcs]; exact hin)
      simp only [getSample] at this
      rw [this]
      have hz := getSample_zero
        (AudioNode.summingAudioNode nodes).getAudioNodeProperties.numberOfChannels n c i
      simp only [getSample] at hz
      rw [hz, zero_add, processAll_snd, List.map_map]
      congr 1
      apply List.map_congr_left
      intro d hd
      rw [render_cons, concatChannel_cons, List.getD_append _ _ _ _ (by rw [hlen d hd]; exact hin)]
      rfl
    · rw [List.getD_append_right _ _ _ _ (by rw [hS0]; exact hin), hS0]
      have hprops : (AudioNode.summingAudioNode (processAll n nodes).1).getAudioNodeProperties
          = (AudioNode.summingAudioNode nodes).getAudioNodeProperties := by
        have := processBlock_props n (.summingAudioNode nodes)
        simpa only [processBlock] using this
      have hi2 : i - n < rest.sum := by
        simp only [List.sum_cons] at hi
        omega
      rw [ih (processAll n nodes).1 ?_ (i - n) (by rw [hprops]; exact hcs) hi2]
      · rw [processAll_fst, List.map_map]
        congr 1
        apply List.map_congr_left
        intro d hd
        rw [render_cons, concatChannel_cons,
          List.getD_append_right _ _ _ _ (by rw [hlen d hd]; exact hin), hlen d hd]
        rfl
      · intro d hd
        rw [processAll_fst] at hd
        obtain ⟨d0, hd0, rfl⟩ := List.mem_map.mp hd
        exact (hhead d0 hd0).2

end SummingStream

section Alignment

open AudioBlock AudioNode

theorem take_delay_delay (L D : Nat) (x : List Sample) :
    (List.replicate L 0 ++ (List.replicate D 0 ++ x).take x.length).take x.length
      = (List.replicate (L + D) 0 ++ x).take x.length := by
  have h1 : List.replicate L (0 : Sample) ++ (List.replicate D 0 ++ x).take x.length
      = (List.replicate L 0 ++ (List.replicate D 0 ++ x)).take (L + x.length) := by
    have := @List.take_append _ (List.replicate L (0 : Sample))
      (List.replicate D 0 ++ x) x.length
    rw [List.length_replicate] at this
    exact this.symm
  rw [h1, List.take_take, ← List.append_assoc, List.append_replicate_replicate]
  congr 1
  omega

/-- A prepared latency node of `L` samples on top of a node that delays the
stream `x` by `D` samples delays it by `L + D` samples. -/
theorem latency_delays (C B L D : Nat) (ns : List Nat) (input : AudioNode) (fifo0 : AudioFifo)
    (x : List Sample) (hfit : L + B + 1 ≤ INT_MAX) (hB : ∀ n ∈ ns, n ≤ B)
    (hC : input.getAudioNodeProperties.numberOfChannels = C)
    (hs : Shapes (render input ns) C ns) (c : Nat) (hc : c < C)
    (hin : concatChannel (render input ns) c = (List.replicate D 0 ++ x).take x.length) :
    Shapes (render (.latencyAudioNode input (L : Int)
        (LatencyAudioNode.prepareToPlay C (L : Int) B fifo0)) ns) C ns ∧
    concatChannel (render (.latencyAudioNode input (L : Int)
        (LatencyAudioNode.prepareToPlay C (L : Int) B fifo0)) ns) c
      = (List.replicate (L + D) 0 ++ x).take x.length := by
  rw [render_latency C ns input _ _ hC hs]
  refine ⟨(run_primed C L B _ ns _ (prepareToPlay_primed C L B fifo0 hfit) hs hB).2.1, ?_⟩
  rw [run_stream C L B _ ns fifo0 hfit hs hB c hc, hin]
  have hlen : ((List.replicate D (0 : Sample) ++ x).take x.length).length = x.length := by
    simp
  rw [hlen]
  exact take_delay_delay L D x

theorem prepareToPlay_makeLatencyAudioNode (B : Nat) (input : AudioNode) (L : Int) :
    prepareToPlay B (makeLatencyAudioNode input L)
      = .latencyAudioNode (prepareToPlay B input) L
          (LatencyAudioNode.prepareToPlay input.getAudioNodeProperties.numberOfChannels L B
            (AudioFifo.init 1 32)) := by
  simp [makeLatencyAudioNode, prepareToPlay, LatencyAudioNode.getAudioNodeProperties]

theorem Branch.node_props (C : Nat) (b : Branch) :
    (b.node C).getAudioNodeProperties.numberOfChannels = C ∧
    (b.node C).latency = (b.latency : Int) := by
  unfold Branch.node Branch.latency
  cases b.delay with
  | none => simp [Branch.source, getAudioNodeProperties, AudioNode.latency]
  | some L =>
    simp [Branch.source, getAudioNodeProperties, AudioNode.latency, makeLatencyAudioNode,
      LatencyAudioNode.getAudioNodeProperties]

/-- The stream of a branch as the summing node reads it. -/
theorem Branch.source_stream (C B : Nat) (ns : List Nat) (b : Branch)
    (hs : Shapes b.output C ns) (c : Nat) :
    (b.source C).getAudioNodeProperties.numberOfChannels = C ∧
    Shapes (render (prepareToPlay B (b.source C)) ns) C ns ∧
    concatChannel (render (prepareToPlay B (b.source C)) ns) c
      = (List.replicate 0 0 ++ concatChannel b.output c).take (concatChannel b.output c).length := by
  have hr : render (prepareToPlay B (b.source C)) ns = b.output := by
    simp only [Branch.source, prepareToPlay]
    exact render_source _ _ _ (List.Forall₂.length_eq hs)
  rw [hr]
  exact ⟨rfl, hs, by simp⟩

/-- What a branch emits once the constructor of the summing node has aligned it
and the tree is prepared: its source, delayed by `Lmax` samples. -/
theorem Branch.aligned_stream (C B Lmax : Nat) (ns : List Nat) (b : Branch)
    (hfit : Lmax + B + 1 ≤ INT_MAX) (hB : ∀ n ∈ ns, n ≤ B) (hs : Shapes b.output C ns)
    (hL : b.latency ≤ Lmax)
    (c : Nat) (hc : c < C) :
    Shapes (render (prepareToPlay B
        (if (Lmax : Int) - (b.node C).latency = 0 then b.node C
          else makeLatencyAudioNode (b.node C) ((Lmax : Int) - (b.node C).latency))) ns) C ns ∧
    concatChannel (render (prepareToPlay B
        (if (Lmax : Int) - (b.node C).latency = 0 then b.node C
          else makeLatencyAudioNode (b.node C) ((Lmax : Int) - (b.node C).latency))) ns) c
      = (List.replicate Lmax 0 ++ concatChannel b.output c).take
          (concatChannel b.output c).length := by
  obtain ⟨hsC, hsS, hsX⟩ := Branch.source_stream C B ns b hs c
  have hsP : (prepareToPlay B (b.source C)).getAudioNodeProperties.numberOfChannels = C := by
    rw [prepareToPlay_props]; exact hsC
  -- the node handed to the constructor, prepared
  have hnode : Shapes (render (prepareToPlay B (b.node C)) ns) C ns ∧
      concatChannel (render (prepareToPlay B (b.node C)) ns) c
        = (List.replicate b.latency 0 ++ concatChannel b.output c).take
            (concatChannel b.output c).length := by
    have hbfit : b.latency + B + 1 ≤ INT_MAX := by omega
    unfold Branch.latency at hbfit
    unfold Branch.node Branch.latency
    cases hdelay : b.delay with
    | none => exact ⟨hsS, hsX⟩
    | some L =>
      rw [hdelay] at hbfit
      simp only [Option.getD_some] at hbfit ⊢
      rw [prepareToPlay_makeLatencyAudioNode, hsC]
      have := latency_delays C B L 0 ns _ (AudioFifo.init 1 32) _ hbfit hB hsP hsS c hc hsX
      simpa using this
  obtain ⟨hnC, hnL⟩ := Branch.node_props C b
  rw [hnL]
  by_cases h0 : (Lmax : Int) - (b.latency : Int) = 0
  · rw [if_pos h0]
    have : b.latency = Lmax := by omega
    rw [← this]
    exact hnode
  · rw [if_neg h0, prepareToPlay_makeLatencyAudioNode, hnC]
    have hcast : (Lmax : Int) - (b.latency : Int) = ((Lmax - b.latency : Nat) : Int) := by omega
    rw [hcast]
    have hnP : (prepareToPlay B (b.node C)).getAudioNodeProperties.numberOfChannels = C := by
      rw [prepareToPlay_props]; exact hnC
    have := latency_delays C B (Lmax - b.latency) b.latency ns _ (AudioFifo.init 1 32) _
      (by omega) hB hnP hnode.1 c hc hnode.2
    have hsum : Lmax - b.latency + b.latency = Lmax := by omega
    rw [hsum] at this
    exact this

/-- The summing node of the alignment scenario emits the sum of its sources,
delayed by the longest branch. -/
theorem aligned_sum (C B Lmax : Nat) (ns : List Nat) (branches : List Branch)
    (hfit : Lmax + B + 1 ≤ INT_MAX) (hB : ∀ n ∈ ns, n ≤ B)
    (hs : ∀ b ∈ branches, Shapes b.output C ns)
    (hle : ∀ b ∈ branches, b.latency ≤ Lmax) (hex : ∃ b ∈ branches, b.latency = Lmax)
    (c i : Nat) (hc : c < C) (hi : i < ns.sum) :
    (i < Lmax →
      (concatChannel (render (prepareToPlay B
        (makeSummingAudioNode (branches.map (Branch.node C)))) ns) c).getD i 0 = 0) ∧
    (Lmax ≤ i →
      (concatChannel (render (prepareToPlay B
        (makeSummingAudioNode (branches.map (Branch.node C)))) ns) c).getD i 0
        = (branches.map (fun b => (concatChannel b.output c).getD (i - Lmax) 0)).sum) := by
  have hnn : ∀ node ∈ branches.map (Branch.node C), 0 ≤ node.latency := by
    intro node hn
    obtain ⟨b, _, rfl⟩ := List.mem_map.mp hn
    rw [(Branch.node_props C b).2]
    omega
  have hne : branches.map (Branch.node C) ≠ [] := by
    obtain ⟨b, hb, _⟩ := hex
    intro h
    rw [List.map_eq_nil_iff] at h
    rw [h] at hb
    simp at hb
  have hmax : IsMaxLatency (branches.map (Branch.node C)) (Lmax : Int) := by
    constructor
    · intro node hn
      obtain ⟨b, hb, rfl⟩ := List.mem_map.mp hn
      rw [(Branch.node_props C b).2]
      exact_mod_cast hle b hb
    · obtain ⟨b, hb, hbL⟩ := hex
      refine ⟨b.node C, List.mem_map.mpr ⟨b, hb, rfl⟩, ?_⟩
      rw [(Branch.node_props C b).2, hbL]
  have hm := maxLatency_of_isMax _ _ hnn hmax
  have htree : prepareToPlay B (makeSummingAudioNode (branches.map (Branch.node C)))
      = .summingAudioNode (branches.map (fun b => prepareToPlay B
          (if (Lmax : Int) - (b.node C).latency = 0 then b.node C
            else makeLatencyAudioNode (b.node C) ((Lmax : Int) - (b.node C).latency)))) := by
    simp only [makeSummingAudioNode, hm, prepareToPlay, prepareAll_eq_map, addLatencies_eq_map,
      List.map_map]
    rfl
  have hchan : (prepareToPlay B
      (makeSummingAudioNode (branches.map (Branch.node C)))).getAudioNodeProperties.numberOfChannels
      = C := by
    rw [prepareToPlay_props]
    obtain ⟨_, node, hn, hnc⟩ := (summing_properties _ hne hnn).2.2.1
    obtain ⟨b, _, rfl⟩ := List.mem_map.mp hn
    rw [← hnc]
    exact (Branch.node_props C b).1
  rw [htree] at hchan ⊢
  have hstream := summing_stream C ns _ (by
    intro d hd
    obtain ⟨b, hb, rfl⟩ := List.mem_map.mp hd
    exact (Branch.aligned_stream C B Lmax ns b hfit hB (hs b hb) (hle b hb) c hc).1) c i hc
    (by rw [hchan]; exact hc) hi
  rw [hstream, List.map_map]
  have hterm : ∀ b ∈ branches,
      (concatChannel (render (prepareToPlay B
        (if (Lmax : Int) - (b.node C).latency = 0 then b.node C
          else makeLatencyAudioNode (b.node C) ((Lmax : Int) - (b.node C).latency))) ns) c).getD i 0
      = ((List.replicate Lmax 0 ++ concatChannel b.output c).take
          (concatChannel b.output c).length).getD i 0 := by
    intro b hb
    rw [(Branch.aligned_stream C B Lmax ns b hfit hB (hs b hb) (hle b hb) c hc).2]
  have hlen : ∀ b ∈ branches, i < (concatChannel b.output c).length := by
    intro b hb
    rw [concatChannel_length _ C ns c (hs b hb) hc]
    exact hi
  constructor
  · intro hlt
    apply List.sum_eq_zero
    intro y hy
    obtain ⟨b, hb, rfl⟩ := List.mem_map.mp hy
    simp only [Function.comp]
    rw [hterm b hb]
    exact (delayed_getD Lmax _ i (hlen b hb)).1 hlt
  · intro hge
    congr 1
    apply List.map_congr_left
    intro b hb
    simp only [Function.comp]
    rw [hterm b hb]
    exact (delayed_getD Lmax _ i (hlen b hb)).2 hge

end Alignment

/-! ## Input lists and readiness -/

section Scheduling

theorem mem_getAllInputNodesFrom (nodes : List AudioNode) (k : Nat) (q : NodeId) :
    q ∈ getAllInputNodesFrom k nodes ↔
      ∃ (j : Nat) (child : AudioNode) (r : NodeId), q = (k + j) :: r ∧ nodes[j]? = some child ∧
        (r = [] ∨ r ∈ child.getAllInputNodes) := by
  induction nodes generalizing k with
  | nil => simp [getAllInputNodesFrom]
  | cons node rest ih =>
    simp only [getAllInputNodesFrom, List.cons_append, List.mem_cons, List.mem_append,
      List.mem_map, ih]
    constructor
    · rintro (h | ⟨r, hr, rfl⟩ | ⟨j, child, r, rfl, hj, hr⟩)
      · exact ⟨0, node, [], by simpa using h, by simp, Or.inl rfl⟩
      · exact ⟨0, node, r, by simp, by simp, Or.inr hr⟩
      · exact ⟨j + 1, child, r, by simp; omega, by simpa using hj, hr⟩
    · rintro ⟨j, child, r, rfl, hj, hr⟩
      cases j with
      | zero =>
        simp only [List.getElem?_cons_zero, Option.some.injEq] at hj
        subst hj
        rcases hr with rfl | hr
        · left; simp
        · right; left; exact ⟨r, hr, by simp⟩
      | succ j =>
        right; right
        exact ⟨j, child, r, by simp; omega, by simpa using hj, hr⟩

/-- The list of `getAllInputNodes()`, one level unfolded: a direct input, or a
node of the list of a direct input. -/
theorem mem_getAllInputNodes (node : AudioNode) (q : NodeId) :
    q ∈ node.getAllInputNodes ↔
      ∃ (k : Nat) (child : AudioNode) (r : NodeId), q = k :: r ∧
        node.directInputs[k]? = some child ∧ (r = [] ∨ r ∈ child.getAllInputNodes) := by
  cases node with
  | source props output => simp [getAllInputNodes, directInputs]
  | latencyAudioNode input L fifo =>
    simp only [getAllInputNodes, directInputs, List.mem_cons, List.mem_map]
    constructor
    · rintro (h | ⟨r, hr, rfl⟩)
      · exact ⟨0, input, [], h, by simp, Or.inl rfl⟩
      · exact ⟨0, input, r, rfl, by simp, Or.inr hr⟩
    · rintro ⟨k, child, r, rfl, hk, hr⟩
      cases k with
      | zero =>
        simp only [List.getElem?_cons_zero, Option.some.injEq] at hk
        subst hk
        rcases hr with rfl | hr
        · left; rfl
        · right; exact ⟨r, hr, rfl⟩
      | succ k => simp at hk
  | summingAudioNode nodes =>
    simp only [getAllInputNodes, directInputs, mem_getAllInputNodesFrom, Nat.zero_add]

/-- The list of `getAllInputNodes()` holds exactly the nodes strictly below. -/
theorem mem_getAllInputNodes_iff_nodeAt (q : NodeId) (node : AudioNode) :
    q ∈ node.getAllInputNodes ↔ q ≠ [] ∧ (node.nodeAt q).isSome = true := by
  induction q generalizing node with
  | nil =>
    simp only [ne_eq, not_true_eq_false, false_and, iff_false]
    intro h
    obtain ⟨k, child, r, h0, _⟩ := (mem_getAllInputNodes node []).mp h
    simp at h0
  | cons k r ih =>
    rw [mem_getAllInputNodes]
    simp only [ne_eq, reduceCtorEq, not_false_eq_true, true_and, nodeAt]
    constructor
    · rintro ⟨k1, child, r1, h0, hk, hr⟩
      obtain ⟨rfl, rfl⟩ := List.cons.inj h0
      rw [hk]
      rcases hr with rfl | hr
      · simp [nodeAt]
      · exact ((ih child).mp hr).2
    · intro h
      cases hk : node.directInputs[k]? with
      | none => rw [hk] at h; simp at h
      | some child =>
        rw [hk] at h
        refine ⟨k, child, r, rfl, hk, ?_⟩
        by_cases hr : r = []
        · exact Or.inl hr
        · exact Or.inr ((ih child).mpr ⟨hr, h⟩)

theorem nodeAt_append (p q : NodeId) (node : AudioNode) :
    node.nodeAt (p ++ q) = (node.nodeAt p).bind (fun d => d.nodeAt q) := by
  induction p generalizing node with
  | nil => simp [nodeAt]
  | cons k p ih =>
    simp only [List.cons_append, nodeAt]
    cases node.directInputs[k]? with
    | none => rfl
    | some child => exact ih child

theorem allProcessedFrom_iff (hasProcessed : NodeId → Bool) (nodes : List AudioNode) (k : Nat) :
    allProcessedFrom hasProcessed k nodes = true ↔
      ∀ j, j < nodes.length → hasProcessed [k + j] = true := by
  induction nodes generalizing k with
  | nil => simp [allProcessedFrom]
  | cons node rest ih =>
    simp only [allProcessedFrom, List.length_cons]
    cases h : hasProcessed [k] with
    | false =>
      simp only [Bool.not_false, if_true, Bool.false_eq_true, false_iff, not_forall]
      exact ⟨0, by omega, by simp [h]⟩
    | true =>
      simp only [Bool.not_true, Bool.false_eq_true, if_false, ih]
      constructor
      · intro hall j hj
        cases j with
        | zero => simpa using h
        | succ j =>
          have := hall j (by omega)
          rwa [show k + 1 + j = k + (j + 1) by omega] at this
      · intro hall j hj
        have := hall (j + 1) (by omega)
        rwa [show k + (j + 1) = k + 1 + j by omega] at this

/-- `isReadyToProcess()` is true exactly when every direct input has processed. -/
theorem isReadyToProcess_iff (hasProcessed : NodeId → Bool) (node : AudioNode) :
    node.isReadyToProcess hasProcessed = true ↔
      ∀ k, k < node.directInputs.length → hasProcessed [k] = true := by
  cases node with
  | source props output => simp [isReadyToProcess, directInputs]
  | latencyAudioNode input L fifo =>
    simp only [isReadyToProcess, directInputs, List.length_singleton, Nat.lt_one_iff]
    constructor
    · rintro h k rfl
      exact h
    · intro h
      exact h 0 rfl
  | summingAudioNode nodes =>
    simp only [isReadyToProcess, directInputs, allProcessedFrom_iff, Nat.zero_add]

theorem direct_mem_getAllInputNodes (node : AudioNode) (k : Nat)
    (hk : k < node.directInputs.length) : [k] ∈ node.getAllInputNodes := by
  rw [mem_getAllInputNodes]
  exact ⟨k, node.directInputs[k], [], rfl, by simp [hk], Or.inl rfl⟩

/-- When every node of `getAllInputNodes()` has processed, the node is ready. -/
theorem isReadyToProcess_of_all (hasProcessed : NodeId → Bool) (node : AudioNode)
    (h : ∀ q ∈ node.getAllInputNodes, hasProcessed q = true) :
    node.isReadyToProcess hasProcessed = true := by
  rw [isReadyToProcess_iff]
  exact fun k hk => h [k] (direct_mem_getAllInputNodes node k hk)

/-- In a downward closed state a ready node has its whole input list processed. -/
theorem all_of_isReadyToProcess (hasProcessed : NodeId → Bool) (node : AudioNode)
    (hclosed : DownwardClosed node hasProcessed)
    (h : node.isReadyToProcess hasProcessed = true) :
    ∀ q ∈ node.getAllInputNodes, hasProcessed q = true := by
  rw [isReadyToProcess_iff] at h
  intro q hq
  obtain ⟨k, child, r, rfl, hk, hr⟩ := (mem_getAllInputNodes node q).mp hq
  have hklt : k < node.directInputs.length := by
    by_contra hge
    rw [List.getElem?_eq_none (by omega)] at hk
    simp at hk
  rcases hr with rfl | hr
  · exact h k hklt
  · have := hclosed [k] (direct_mem_getAllInputNodes node k hklt) (h k hklt) child
      (by simp [nodeAt, hk]) r hr
    simpa using this

end Scheduling

section Order

/-- In every state the executor reaches, a node that has processed has its whole
input list processed. -/
theorem reachable_closed (root : AudioNode) (flags : NodeId → Bool)
    (h : Reachable root flags) :
    ∀ (p : NodeId) (node : AudioNode), root.nodeAt p = some node → flags p = true →
      ∀ q ∈ node.getAllInputNodes, flags (p ++ q) = true := by
  induction h with
  | start => intro p node _ hp; simp at hp
  | step flags p0 node0 _ hnode0 _ hready ih =>
    have hmono : ∀ q, flags q = true → (if q = p0 then true else flags q) = true := by
      intro q hq
      split
      · rfl
      · exact hq
    intro p node hnode hp q hq
    apply hmono
    by_cases hpp : p = p0
    · subst hpp
      rw [hnode0] at hnode
      obtain rfl := Option.some.inj hnode
      have hclosed : DownwardClosed node0 (fun q => flags (p ++ q)) := by
        intro q1 _ hq1 d hd r hr
        have hroot : root.nodeAt (p ++ q1) = some d := by
          rw [nodeAt_append, hnode0]
          exact hd
        have := ih (p ++ q1) d hroot hq1 r hr
        simpa [List.append_assoc] using this
      exact all_of_isReadyToProcess _ node0 hclosed hready q hq
    · have hp2 : flags p = true := by simpa [hpp] using hp
      exact ih p node hnode hp2 q hq

theorem Before.ne : ∀ (a b : NodeId), Before a b → a ≠ b
  | _, _, .below p k q => by
    intro heq
    have := congrArg List.length heq
    simp at this
  | _, _, .left p j k q r hjk => by
    intro heq
    have := List.append_cancel_left heq
    simp at this
    omega

theorem Before.cons (k : Nat) : ∀ (a b : NodeId), Before a b → Before (k :: a) (k :: b)
  | _, _, .below p k1 q => Before.below (k :: p) k1 q
  | _, _, .left p j k1 q r hjk => Before.left (k :: p) j k1 q r hjk

theorem getAllInputNodes_ne_nil (node : AudioNode) (q : NodeId)
    (hq : q ∈ node.getAllInputNodes) : q ≠ [] :=
  ((mem_getAllInputNodes_iff_nodeAt q node).mp hq).1

/-- A direct input followed by its own list, all named from the parent, is in
pre-order when the list is. -/
theorem pairwise_block (k : Nat) (l : List NodeId) (hl : l.Pairwise Before)
    (hne : ∀ r ∈ l, r ≠ []) : ([k] :: l.map (fun p => k :: p)).Pairwise Before := by
  rw [List.pairwise_cons]
  constructor
  · intro b hb
    obtain ⟨r, hr, rfl⟩ := List.mem_map.mp hb
    cases r with
    | nil => exact absurd rfl (hne [] hr)
    | cons x xs => exact Before.below [k] x xs
  · rw [List.pairwise_map]
    exact hl.imp (fun {a b} hab => Before.cons k a b hab)

mutual
theorem pairwise_getAllInputNodes :
    ∀ node : AudioNode, node.getAllInputNodes.Pairwise Before
  | .source _ _ => by simp [getAllInputNodes]
  | .latencyAudioNode input _ _ => by
      simp only [getAllInputNodes]
      exact pairwise_block 0 _ (pairwise_getAllInputNodes input)
        (getAllInputNodes_ne_nil input)
  | .summingAudioNode nodes => by
      simp only [getAllInputNodes]
      exact pairwise_getAllInputNodesFrom 0 nodes
theorem pairwise_getAllInputNodesFrom :
    ∀ (k : Nat) (nodes : List AudioNode), (getAllInputNodesFrom k nodes).Pairwise Before
  | _, [] => by simp [getAllInputNodesFrom]
  | k, node :: rest => by
      simp only [getAllInputNodesFrom]
      rw [List.pairwise_append]
      refine ⟨pairwise_block k _ (pairwise_getAllInputNodes node)
        (getAllInputNodes_ne_nil node), pairwise_getAllInputNodesFrom (k + 1) rest, ?_⟩
      intro a ha b hb
      obtain ⟨j, child, r, rfl, _, _⟩ := (mem_getAllInputNodesFrom rest (k + 1) b).mp hb
      have hahead : ∃ t, a = k :: t := by
        rcases List.mem_cons.mp ha with rfl | ha
        · exact ⟨[], rfl⟩
        · obtain ⟨t, _, rfl⟩ := List.mem_map.mp ha
          exact ⟨t, rfl⟩
      obtain ⟨t, rfl⟩ := hahead
      exact Before.left [] k (k + 1 + j) t r (by omega)
end

theorem nodup_getAllInputNodes (node : AudioNode) : node.getAllInputNodes.Nodup :=
  (pairwise_getAllInputNodes node).imp (fun {a b} hab => Before.ne a b hab)

end Order

section Frame

theorem directInputs_processBlock (n : Nat) (node : AudioNode) :
    (processBlock n node).1.directInputs
      = node.directInputs.map (fun d => (processBlock n d).1) := by
  cases node with
  | source props output => cases output <;> rfl
  | latencyAudioNode input L fifo => rfl
  | summingAudioNode nodes =>
    simp only [processBlock, directInputs]
    exact processAll_fst n nodes

theorem nodeAt_processBlock (n : Nat) (p : NodeId) (node : AudioNode) :
    (processBlock n node).1.nodeAt p
      = (node.nodeAt p).map (fun d => (processBlock n d).1) := by
  induction p generalizing node with
  | nil => simp [nodeAt]
  | cons k rest ih =>
    simp only [nodeAt, directInputs_processBlock, List.getElem?_map]
    cases node.directInputs[k]? with
    | none => rfl
    | some child => exact ih child

theorem advance_props (ns : List Nat) (node : AudioNode) :
    (advance node ns).getAudioNodeProperties = node.getAudioNodeProperties := by
  induction ns generalizing node with
  | nil => rfl
  | cons n rest ih =>
    simp only [advance]
    rw [ih, processBlock_props]

theorem nodeAt_advance (ns : List Nat) (p : NodeId) (node : AudioNode) :
    (advance node ns).nodeAt p = (node.nodeAt p).map (fun d => advance d ns) := by
  induction ns generalizing node with
  | nil => simp [advance]
  | cons n rest ih =>
    simp only [advance]
    rw [ih, nodeAt_processBlock, Option.map_map]
    rfl

end Frame

section LatencyMore

open AudioBlock

/-- One `process` call of a prepared latency node on any output block with the
frame count of the input's block: the write fits, the assertions hold and the
ring is back in its state between calls. -/
theorem process_assertions (fifo : AudioFifo) (C L B n : Nat) (b dest : AudioBlock)
    (hf : fifo.Primed C L B) (hb : HasShape b C n) (hn : n ≤ B)
    (hd : getNumSamples dest = getNumSamples b) :
    LatencyAudioNode.assertionsHold fifo b dest ∧ LatencyAudioNode.writeFits fifo b ∧
      (LatencyAudioNode.process fifo b dest).1.Primed C L B := by
  obtain ⟨hsize, hready, hlen, hq⟩ := hf
  obtain ⟨hbk, _, hkn⟩ := getNumSamples_of_hasShape b C n hb
  have hfree : fifo.getFreeSpace = B := by
    simp only [AudioFifo.getFreeSpace, hsize, hready]
    omega
  have hwrite : fifo.write b = { fifo with
      numReady := L + getNumSamples b
      channels := List.zipWith (fun q ch => q ++ ch) fifo.channels b } := by
    simp only [AudioFifo.write, hfree, hready]
    rw [if_pos (by omega)]
  have hq1 : ∀ q ∈ List.zipWith (fun q ch => q ++ ch) fifo.channels b,
      q.length = L + getNumSamples b := by
    intro q hqm
    obtain ⟨c, hc, rfl⟩ := List.getElem_of_mem hqm
    rw [List.getElem_zipWith, List.length_append]
    rw [hq _ (List.getElem_mem _), hbk.2 _ (List.getElem_mem _)]
  refine ⟨⟨?_, ?_, hd.symm⟩, ?_, ?_⟩
  · simp only [AudioFifo.getNumChannels, AudioBlock.getNumChannels, hlen, hb.1]
  · rw [hwrite, hd]
    simp only [AudioFifo.getNumReady]
    omega
  · simp only [LatencyAudioNode.writeFits, hfree]
    omega
  · simp only [LatencyAudioNode.process, hwrite, AudioFifo.readAdding, hd]
    rw [if_pos (by omega)]
    refine ⟨hsize, by simp, by simp [hlen, hb.1], ?_⟩
    intro q hqm
    simp only [List.mem_map] at hqm
    obtain ⟨q1, hq1m, rfl⟩ := hqm
    rw [List.length_drop, hq1 q1 hq1m]
    omega

theorem processCalls_assertions (C L B : Nat) (calls : List (AudioBlock × AudioBlock))
    (fifo : AudioFifo) (hf : fifo.Primed C L B)
    (hcalls : ∀ call ∈ calls, (∃ n, n ≤ B ∧ HasShape call.1 C n) ∧
      getNumSamples call.2 = getNumSamples call.1)
    (k : Nat) (call : AudioBlock × AudioBlock) (hk : calls[k]? = some call) :
    LatencyAudioNode.assertionsHold (LatencyAudioNode.processCalls fifo (calls.take k))
        call.1 call.2 ∧
      LatencyAudioNode.writeFits (LatencyAudioNode.processCalls fifo (calls.take k)) call.1 := by
  induction calls generalizing fifo k with
  | nil => simp at hk
  | cons c0 rest ih =>
    obtain ⟨⟨n0, hn0, hs0⟩, hd0⟩ := hcalls c0 (List.mem_cons_self _ _)
    cases k with
    | zero =>
      simp only [List.getElem?_cons_zero, Option.some.injEq] at hk
      subst hk
      simp only [List.take_zero, LatencyAudioNode.processCalls]
      obtain ⟨h1, h2, _⟩ := process_assertions fifo C L B n0 c0.1 c0.2 hf hs0 hn0 hd0
      exact ⟨h1, h2⟩
    | succ k =>
      simp only [List.take_succ_cons, LatencyAudioNode.processCalls]
      obtain ⟨_, _, h3⟩ := process_assertions fifo C L B n0 c0.1 c0.2 hf hs0 hn0 hd0
      exact ih _ h3 (fun c hc => hcalls c (List.mem_cons_of_mem _ hc)) k (by simpa using hk)

/-- With a delay of 0 one `process` call of a prepared latency node copies the
input's block into a cleared output block. -/
theorem process_copy (fifo : AudioFifo) (C B n : Nat) (b : AudioBlock)
    (hf : fifo.Primed C 0 B) (hb : HasShape b C n) (hn : n ≤ B) :
    (LatencyAudioNode.process fifo b (AudioBlock.zero C n)).2 = b := by
  obtain ⟨p1, p2, p3⟩ := process_primed fifo C 0 B n b hf hb hn
  have hempty : ∀ (f : AudioFifo), f.Primed C 0 B → ∀ c, f.channels.getD c [] = [] := by
    intro f hfp c
    obtain ⟨_, _, _, hq⟩ := hfp
    by_cases hc : c < f.channels.length
    · rw [List.getD_eq_getElem _ _ hc]
      exact List.length_eq_zero.mp (hq _ (List.getElem_mem _))
    · exact List.getD_eq_default _ _ (by omega)
  apply List.ext_getElem (by rw [p2.1, hb.1])
  intro c h1 h2
  have := p3 c
  rw [hempty _ p1 c, hempty _ hf c, List.append_nil, List.nil_append,
    List.getD_eq_getElem _ _ h1, List.getD_eq_getElem _ _ h2] at this
  exact this

theorem run_copy (C B : Nat) (ins : List AudioBlock) (ns : List Nat) (fifo : AudioFifo)
    (hf : fifo.Primed C 0 B) (hs : Shapes ins C ns) (hB : ∀ n ∈ ns, n ≤ B) :
    (LatencyAudioNode.run C fifo ins).2 = ins := by
  induction hs generalizing fifo with
  | nil => rfl
  | @cons b n bs ns hb _ ih =>
    simp only [LatencyAudioNode.run]
    rw [← zero_congr b C n hb]
    have hn := hB n (List.mem_cons_self _ _)
    rw [process_copy fifo C B n b hf hb hn,
      ih _ (process_primed fifo C 0 B n b hf hb hn).1
        (fun m hm => hB m (List.mem_cons_of_mem _ hm))]

end LatencyMore

section Return

open AudioBlock

/-- What a return node over a zero-latency direct upstream and one sender of
latency `L` emits: the sender's block of the same call plus the direct upstream
delayed by `L` samples. -/
theorem return_stream (C B L : Nat) (ns : List Nat) (hasAudio hasMidi : Bool)
    (x : List AudioBlock) (senderProps : AudioNodeProperties) (y : List AudioBlock)
    (hfit : L + B + 1 ≤ INT_MAX) (hB : ∀ n ∈ ns, n ≤ B) (hx : Shapes x C ns) (hy : Shapes y C ns)
    (hsc : senderProps.numberOfChannels = C) (hsl : senderProps.latencyNumSamples = (L : Int))
    (c i : Nat) (hc : c < C) (hi : i < ns.sum) :
    (concatChannel (render (prepareToPlay B (makeReturnAudioNode
        (.source ⟨hasAudio, hasMidi, C, 0⟩ x) [senderTap senderProps y])) ns) c).getD i 0
      = ((List.replicate L 0 ++ concatChannel x c).take (concatChannel x c).length).getD i 0
        + (concatChannel y c).getD i 0 := by
  have hdirect : (AudioNode.source ⟨hasAudio, hasMidi, C, 0⟩ x)
      = Branch.node C ⟨hasAudio, hasMidi, x, none⟩ := rfl
  rw [hdirect]
  obtain ⟨hnC, hnL⟩ := Branch.node_props C ⟨hasAudio, hasMidi, x, none⟩
  have hnL0 : (Branch.node C ⟨hasAudio, hasMidi, x, none⟩).latency = 0 := by
    rw [hnL]; rfl
  have htl : (senderTap senderProps y).latency = (L : Int) := by
    simp [senderTap, AudioNode.latency, getAudioNodeProperties, hsl]
  have hm : (AudioNode.summingAudioNode
      [Branch.node C ⟨hasAudio, hasMidi, x, none⟩,
        senderTap senderProps y]).getAudioNodeProperties.latencyNumSamples = (L : Int) := by
    rw [maxLatency_eq]
    simp only [List.map_cons, List.map_nil, List.foldl_cons, List.foldl_nil, hnL0, htl]
    omega
  have htree : prepareToPlay B (makeReturnAudioNode
      (Branch.node C ⟨hasAudio, hasMidi, x, none⟩) [senderTap senderProps y])
      = .summingAudioNode
          [prepareToPlay B
            (if (L : Int) - (Branch.node C ⟨hasAudio, hasMidi, x, none⟩).latency = 0
              then Branch.node C ⟨hasAudio, hasMidi, x, none⟩
              else makeLatencyAudioNode (Branch.node C ⟨hasAudio, hasMidi, x, none⟩)
                ((L : Int) - (Branch.node C ⟨hasAudio, hasMidi, x, none⟩).latency)),
           senderTap senderProps y] := by
    have htl2 : (senderTap senderProps y).getAudioNodeProperties.latencyNumSamples = (L : Int) :=
      htl
    simp only [makeReturnAudioNode, makeSummingAudioNode, hm, addLatencies_eq_map, List.map_cons,
      List.map_nil, prepareToPlay, prepareAll, htl2, AudioNode.latency, sub_self, if_true]
    rfl
  have hal := Branch.aligned_stream C B L ns ⟨hasAudio, hasMidi, x, none⟩ hfit hB hx
    (by simp [Branch.latency]) c hc
  have htap : render (senderTap senderProps y) ns = y :=
    render_source _ _ _ (List.Forall₂.length_eq hy)
  have hchan : (prepareToPlay B (makeReturnAudioNode
      (Branch.node C ⟨hasAudio, hasMidi, x, none⟩)
      [senderTap senderProps y])).getAudioNodeProperties.numberOfChannels = C := by
    rw [prepareToPlay_props]
    simp only [makeReturnAudioNode]
    have hne : [Branch.node C ⟨hasAudio, hasMidi, x, none⟩, senderTap senderProps y] ≠ [] := by
      simp
    have hnn : ∀ node ∈ [Branch.node C ⟨hasAudio, hasMidi, x, none⟩, senderTap senderProps y],
        0 ≤ node.latency := by
      intro node hn
      rcases List.mem_cons.mp hn with rfl | hn2
      · rw [hnL0]
      · obtain rfl := List.mem_singleton.mp hn2
        rw [htl]; omega
    obtain ⟨_, node, hn, hnc⟩ := (summing_properties _ hne hnn).2.2.1
    rw [← hnc]
    rcases List.mem_cons.mp hn with rfl | hn2
    · exact hnC
    · obtain rfl := List.mem_singleton.mp hn2
      simpa [senderTap, getAudioNodeProperties] using hsc
  rw [htree] at hchan ⊢
  have hstream := summing_stream C ns _ (by
    intro d hd
    rcases List.mem_cons.mp hd with rfl | hd2
    · exact hal.1
    · obtain rfl := List.mem_singleton.mp hd2
      rw [htap]; exact hy) c i hc (by rw [hchan]; exact hc) hi
  rw [hstream]
  simp only [List.map_cons, List.map_nil, List.sum_cons, List.sum_nil, add_zero]
  rw [hal.2, htap]

end Return

/-! ## The constructor and declared latency -/

section Monotone

/-- A direct input declares at most the latency of the node that holds it. -/
theorem latency_directInput_le (node child : AudioNode) (k : Nat)
    (hk : node.directInputs[k]? = some child) : child.latency ≤ node.latency := by
  cases node with
  | source props output => simp [directInputs] at hk
  | latencyAudioNode input L fifo =>
    cases k with
    | zero =>
      simp only [directInputs, List.getElem?_cons_zero, Option.some.injEq] at hk
      subst hk
      simp only [AudioNode.latency, getAudioNodeProperties,
        LatencyAudioNode.getAudioNodeProperties]
      exact le_max_left _ _
    | succ k => simp [directInputs] at hk
  | summingAudioNode nodes =>
    simp only [directInputs] at hk
    have hmem : child ∈ nodes := List.getElem?_mem hk
    have h := maxLatency_eq nodes
    simp only [AudioNode.latency, h]
    exact (foldl_max_spec (nodes.map AudioNode.latency) 0).2.1 _
      (List.mem_map.mpr ⟨child, hmem, rfl⟩)

/-- A node anywhere below declares at most the latency of the node above. -/
theorem latency_nodeAt_le (q : NodeId) (node d : AudioNode) (hd : node.nodeAt q = some d) :
    d.latency ≤ node.latency := by
  induction q generalizing node with
  | nil =>
    simp only [nodeAt, Option.some.injEq] at hd
    subst hd
    exact le_refl _
  | cons k r ih =>
    simp only [nodeAt] at hd
    cases hk : node.directInputs[k]? with
    | none => rw [hk] at hd; simp at hd
    | some child =>
      rw [hk] at hd
      exact le_trans (ih child hd) (latency_directInput_le node child k hk)

/-- The properties of a summing node are the same before and after its
constructor has wrapped the shorter inputs. -/
theorem constructor_keeps_properties (inputs : List AudioNode)
    (hnn : ∀ node ∈ inputs, 0 ≤ node.latency) :
    (makeSummingAudioNode inputs).getAudioNodeProperties.hasAudio
      = (AudioNode.summingAudioNode inputs).getAudioNodeProperties.hasAudio ∧
    (makeSummingAudioNode inputs).getAudioNodeProperties.hasMidi
      = (AudioNode.summingAudioNode inputs).getAudioNodeProperties.hasMidi ∧
    (makeSummingAudioNode inputs).getAudioNodeProperties.numberOfChannels
      = (AudioNode.summingAudioNode inputs).getAudioNodeProperties.numberOfChannels ∧
    (makeSummingAudioNode inputs).getAudioNodeProperties.latencyNumSamples
      = (AudioNode.summingAudioNode inputs).getAudioNodeProperties.latencyNumSamples := by
  by_cases hne : inputs = []
  · subst hne
    exact ⟨rfl, rfl, rfl, rfl⟩
  · obtain ⟨h1, h2, h3, h4⟩ := summing_properties inputs hne hnn
    refine ⟨?_, ?_, ?_, ?_⟩
    · rw [h1]
      simp [getAudioNodeProperties, sumProperties_hasAudio]
    · rw [h2]
      simp [getAudioNodeProperties, sumProperties_hasMidi]
    · obtain ⟨hle, node, hn, hnm⟩ := h3
      have : (AudioNode.summingAudioNode inputs).getAudioNodeProperties.numberOfChannels
          = (inputs.map (fun n => n.getAudioNodeProperties.numberOfChannels)).foldl max 0 := by
        simp [getAudioNodeProperties, sumProperties_numberOfChannels]
      rw [this]
      symm
      apply foldl_max_eq_of_isMax _ _ _ (Nat.zero_le _)
      · intro x hx
        obtain ⟨y, hy, rfl⟩ := List.mem_map.mp hx
        exact hle y hy
      · exact List.mem_map.mpr ⟨node, hn, hnm⟩
    · exact (maxLatency_of_isMax inputs _ hnn h4).symm

/-- What the direct inputs declare after the constructor, input by input. -/
theorem directInputs_latencies (inputs : List AudioNode) (d : AudioNode) :
    d ∈ (makeSummingAudioNode inputs).directInputs ↔
      ∃ x ∈ inputs, d =
        if (AudioNode.summingAudioNode inputs).getAudioNodeProperties.latencyNumSamples
            - x.latency = 0 then x
        else makeLatencyAudioNode x
          ((AudioNode.summingAudioNode inputs).getAudioNodeProperties.latencyNumSamples
            - x.latency) := by
  rw [directInputs_makeSummingAudioNode, addLatencies_eq_map, List.mem_map]
  constructor
  · rintro ⟨x, hx, rfl⟩; exact ⟨x, hx, rfl⟩
  · rintro ⟨x, hx, rfl⟩; exact ⟨x, hx, rfl⟩

/-- After the constructor every direct input declares `Lmax` exactly when every
input declared 0 or `Lmax`. -/
theorem equalised_iff (inputs : List AudioNode) (hnn : ∀ node ∈ inputs, 0 ≤ node.latency)
    (Lmax : Int) (hmax : IsMaxLatency inputs Lmax) :
    (∀ d ∈ (makeSummingAudioNode inputs).directInputs, d.latency = Lmax) ↔
      ∀ x ∈ inputs, x.latency = 0 ∨ x.latency = Lmax := by
  have hm := maxLatency_of_isMax inputs Lmax hnn hmax
  constructor
  · intro h x hx
    have hd := h _ ((directInputs_latencies inputs _).mpr ⟨x, hx, rfl⟩)
    rw [hm, latency_added] at hd
    have h1 := hmax.1 x hx
    have h2 := hnn x hx
    split at hd
    · right; exact hd
    · rcases max_cases x.latency (Lmax - x.latency) with ⟨he, _⟩ | ⟨he, _⟩
      · rw [he] at hd; right; exact hd
      · rw [he] at hd; left; omega
  · intro h d hd
    obtain ⟨x, hx, rfl⟩ := (directInputs_latencies inputs d).mp hd
    rw [hm, latency_added]
    have h1 := hmax.1 x hx
    have h2 := hnn x hx
    rcases h x hx with h0 | hL
    · split
      · omega
      · rw [h0]; simp; omega
    · split
      · exact hL
      · omega

end Monotone

/-! ## The claims -/

section Claims

open AudioBlock AudioNode

/-- Claim C1, evaluated on the code. Two inputs that declare 10 and 4 samples of
latency are handed to the constructor of `SummingAudioNode`; the second is wrapped
in a latency node of 6 samples, which declares `max 4 6 = 6`. The direct inputs
then declare 10 and 6, not one common value, while the summing node declares 10. -/
theorem C1_direct_inputs_declare_unequal_latencies :
    (((makeSummingAudioNode
        [makeLatencyAudioNode (.source ⟨true, false, 1, 0⟩ []) 10,
         makeLatencyAudioNode (.source ⟨true, false, 1, 0⟩ []) 4]).directInputs).map latency
      = [10, 6]) ∧
    (makeSummingAudioNode
        [makeLatencyAudioNode (.source ⟨true, false, 1, 0⟩ []) 10,
         makeLatencyAudioNode (.source ⟨true, false, 1, 0⟩ []) 4]).latency = 10 := by
  decide

/-- Claim C2, evaluated on the code. Two latency nodes of 3 and 5 samples in
series over a zero-latency source declare `max 3 5 = 5` samples, while the path
applies 3 + 5 = 8: an impulse fed at frame 0 leaves the prepared tree at frame 8. -/
theorem C2_declared_latency_below_applied_delay :
    (makeLatencyAudioNode (makeLatencyAudioNode
        (.source ⟨true, false, 1, 0⟩ [[[1, 0, 0, 0]], [[0, 0, 0, 0]], [[0, 0, 0, 0]]]) 3) 5).latency
      = 5 ∧
    (makeLatencyAudioNode (makeLatencyAudioNode
        (.source ⟨true, false, 1, 0⟩ [[[1, 0, 0, 0]], [[0, 0, 0, 0]], [[0, 0, 0, 0]]]) 3)
        5).maxPathDelay = 8 ∧
    render (prepareToPlay 4 (makeLatencyAudioNode (makeLatencyAudioNode
        (.source ⟨true, false, 1, 0⟩ [[[1, 0, 0, 0]], [[0, 0, 0, 0]], [[0, 0, 0, 0]]]) 3) 5))
        [4, 4, 4]
      = [[[0, 0, 0, 0]], [[0, 0, 0, 0]], [[1, 0, 0, 0]]] := by
  decide

/-- Claim C3. A latency node with delay `L`, prepared with block size `B` (the
capacity `L + B + 1` within the range of `int`), is run on input blocks of at
most `B` frames, each call with a cleared output block of the same shape. On every channel the concatenated output is as long as the
concatenated input, is 0 at every index `i < L`, and equals the input at index
`i - L` for `i >= L`. -/
theorem C3_latency_node_delays_by_L (L B C : Nat) (fifo0 : AudioFifo) (ins : List AudioBlock)
    (ns : List Nat) (hfit : L + B + 1 ≤ INT_MAX) (hs : Shapes ins C ns) (hB : ∀ n ∈ ns, n ≤ B) (c i : Nat) (hc : c < C)
    (hi : i < (concatChannel ins c).length) :
    (concatChannel
        (LatencyAudioNode.run C (LatencyAudioNode.prepareToPlay C (L : Int) B fifo0) ins).2
        c).length = (concatChannel ins c).length ∧
    (i < L →
      (concatChannel
        (LatencyAudioNode.run C (LatencyAudioNode.prepareToPlay C (L : Int) B fifo0) ins).2
        c).getD i 0 = 0) ∧
    (L ≤ i →
      (concatChannel
        (LatencyAudioNode.run C (LatencyAudioNode.prepareToPlay C (L : Int) B fifo0) ins).2
        c).getD i 0 = (concatChannel ins c).getD (i - L) 0) := by
  rw [run_stream C L B ins ns fifo0 hfit hs hB c hc]
  exact ⟨by simp, delayed_getD L _ i hi⟩

theorem C3_latency_node_delays_by_L_witness :
    2 + 4 + 1 ≤ INT_MAX ∧ Shapes [[[1, 2, 3]], [[4, 5]]] 1 [3, 2] ∧ (∀ n ∈ [3, 2], n ≤ 4) ∧ 0 < 1 ∧
    3 < (concatChannel [[[1, 2, 3]], [[4, 5]]] 0).length ∧
    ((concatChannel
        (LatencyAudioNode.run 1 (LatencyAudioNode.prepareToPlay 1 ((2 : Nat) : Int) 4
          (AudioFifo.init 1 32)) [[[1, 2, 3]], [[4, 5]]]).2
        0).length = (concatChannel [[[1, 2, 3]], [[4, 5]]] 0).length ∧
    (3 < 2 →
      (concatChannel
        (LatencyAudioNode.run 1 (LatencyAudioNode.prepareToPlay 1 ((2 : Nat) : Int) 4
          (AudioFifo.init 1 32)) [[[1, 2, 3]], [[4, 5]]]).2
        0).getD 3 0 = 0) ∧
    (2 ≤ 3 →
      (concatChannel
        (LatencyAudioNode.run 1 (LatencyAudioNode.prepareToPlay 1 ((2 : Nat) : Int) 4
          (AudioFifo.init 1 32)) [[[1, 2, 3]], [[4, 5]]]).2
        0).getD 3 0 = (concatChannel [[[1, 2, 3]], [[4, 5]]] 0).getD (3 - 2) 0)) :=
  have hs : Shapes [[[1, 2, 3]], [[4, 5]]] 1 [3, 2] := by
    simp [Shapes, HasShape]
  have hB : ∀ n ∈ [3, 2], n ≤ 4 := by decide
  have hi : 3 < (concatChannel [[[1, 2, 3]], [[4, 5]]] 0).length := by decide
  have hfit : 2 + 4 + 1 ≤ INT_MAX := by decide
  ⟨hfit, hs, hB, by decide, hi,
    C3_latency_node_delays_by_L 2 4 1 (AudioFifo.init 1 32) [[[1, 2, 3]], [[4, 5]]] [3, 2] hfit
      hs hB 0 3 (by decide) hi⟩

/-- Claim C4. A summing node is built over branches, each a zero-latency source,
wrapped or not in one latency node of `L_k` samples (`L_k = 0` when not wrapped);
`Lmax` is the largest `L_k`. The sources emit blocks of `C` channels with the
frame counts `ns`, none above the prepared block size `B`, and `Lmax + B + 1`
is within the range of `int`. On every channel the
concatenated output of the summing node is 0 at every index `i < Lmax` and is
the sum over the branches of the source sample at index `i - Lmax` for
`i >= Lmax`. -/
theorem C4_summing_node_aligns_branches (C B Lmax : Nat) (ns : List Nat)
    (branches : List Branch) (hfit : Lmax + B + 1 ≤ INT_MAX) (hB : ∀ n ∈ ns, n ≤ B)
    (hs : ∀ b ∈ branches, Shapes b.output C ns)
    (hle : ∀ b ∈ branches, b.latency ≤ Lmax) (hex : ∃ b ∈ branches, b.latency = Lmax)
    (c i : Nat) (hc : c < C) (hi : i < ns.sum) :
    (i < Lmax →
      (concatChannel (render (prepareToPlay B
        (makeSummingAudioNode (branches.map (Branch.node C)))) ns) c).getD i 0 = 0) ∧
    (Lmax ≤ i →
      (concatChannel (render (prepareToPlay B
        (makeSummingAudioNode (branches.map (Branch.node C)))) ns) c).getD i 0
        = (branches.map (fun b => (concatChannel b.output c).getD (i - Lmax) 0)).sum) :=
  aligned_sum C B Lmax ns branches hfit hB hs hle hex c i hc hi

theorem C4_summing_node_aligns_branches_witness :
    1 + 2 + 1 ≤ INT_MAX ∧ (∀ n ∈ [2, 1], n ≤ 2) ∧
    (∀ b ∈ [Branch.mk true false [[[1, 2]], [[3]]] none,
        Branch.mk true false [[[10, 20]], [[30]]] (some 1)], Shapes b.output 1 [2, 1]) ∧
    (∀ b ∈ [Branch.mk true false [[[1, 2]], [[3]]] none,
        Branch.mk true false [[[10, 20]], [[30]]] (some 1)], b.latency ≤ 1) ∧
    (∃ b ∈ [Branch.mk true false [[[1, 2]], [[3]]] none,
        Branch.mk true false [[[10, 20]], [[30]]] (some 1)], b.latency = 1) ∧
    ((2 < 1 →
      (concatChannel (render (prepareToPlay 2
        (makeSummingAudioNode ([Branch.mk true false [[[1, 2]], [[3]]] none,
          Branch.mk true false [[[10, 20]], [[30]]] (some 1)].map (Branch.node 1)))) [2, 1])
        0).getD 2 0 = 0) ∧
    (1 ≤ 2 →
      (concatChannel (render (prepareToPlay 2
        (makeSummingAudioNode ([Branch.mk true false [[[1, 2]], [[3]]] none,
          Branch.mk true false [[[10, 20]], [[30]]] (some 1)].map (Branch.node 1)))) [2, 1])
        0).getD 2 0
        = ([Branch.mk true false [[[1, 2]], [[3]]] none,
          Branch.mk true false [[[10, 20]], [[30]]] (some 1)].map
            (fun b => (concatChannel b.output 0).getD (2 - 1) 0)).sum)) :=
  have hB : ∀ n ∈ [2, 1], n ≤ 2 := by decide
  have hs : ∀ b ∈ [Branch.mk true false [[[1, 2]], [[3]]] none,
      Branch.mk true false [[[10, 20]], [[30]]] (some 1)], Shapes b.output 1 [2, 1] := by
    simp [Shapes, HasShape]
  have hle : ∀ b ∈ [Branch.mk true false [[[1, 2]], [[3]]] none,
      Branch.mk true false [[[10, 20]], [[30]]] (some 1)], b.latency ≤ 1 := by
    simp [Branch.latency]
  have hex : ∃ b ∈ [Branch.mk true false [[[1, 2]], [[3]]] none,
      Branch.mk true false [[[10, 20]], [[30]]] (some 1)], b.latency = 1 := by
    simp [Branch.latency]
  have hfit : 1 + 2 + 1 ≤ INT_MAX := by decide
  ⟨hfit, hB, hs, hle, hex,
    C4_summing_node_aligns_branches 1 2 1 [2, 1] _ hfit hB hs hle hex 0 2 (by decide)
      (by decide)⟩

/-- Claim C5. For every input node and every configured delay `L`, the latency
node over that input declares the input's `hasAudio`, `hasMidi` and
`numberOfChannels` unchanged and `latencyNumSamples = max (input's) L`. -/
theorem C5_latency_node_properties (input : AudioNode) (L : Int) (fifo : AudioFifo) :
    (AudioNode.latencyAudioNode input L fifo).getAudioNodeProperties.hasAudio
      = input.getAudioNodeProperties.hasAudio ∧
    (AudioNode.latencyAudioNode input L fifo).getAudioNodeProperties.hasMidi
      = input.getAudioNodeProperties.hasMidi ∧
    (AudioNode.latencyAudioNode input L fifo).getAudioNodeProperties.numberOfChannels
      = input.getAudioNodeProperties.numberOfChannels ∧
    (AudioNode.latencyAudioNode input L fifo).getAudioNodeProperties.latencyNumSamples
      = max input.getAudioNodeProperties.latencyNumSamples L := by
  simp [getAudioNodeProperties, LatencyAudioNode.getAudioNodeProperties]

/-- Claim C6. For every summing node constructed from a non-empty list of inputs
(with non-negative declared latencies, as the data model has them), the declared
`hasAudio` is the OR of the inputs' `hasAudio`, `hasMidi` the OR of the inputs'
`hasMidi`, `numberOfChannels` the maximum of the inputs' channel counts and
`latencyNumSamples` the maximum of the latencies of the inputs handed to the
constructor. -/
theorem C6_summing_node_properties (inputs : List AudioNode) (hne : inputs ≠ [])
    (hnn : ∀ node ∈ inputs, 0 ≤ node.latency) :
    (makeSummingAudioNode inputs).getAudioNodeProperties.hasAudio
        = inputs.any (fun n => n.getAudioNodeProperties.hasAudio) ∧
    (makeSummingAudioNode inputs).getAudioNodeProperties.hasMidi
        = inputs.any (fun n => n.getAudioNodeProperties.hasMidi) ∧
    IsMaxChannels inputs (makeSummingAudioNode inputs).getAudioNodeProperties.numberOfChannels ∧
    IsMaxLatency inputs (makeSummingAudioNode inputs).getAudioNodeProperties.latencyNumSamples :=
  summing_properties inputs hne hnn

theorem C6_summing_node_properties_witness :
    ([AudioNode.source ⟨true, false, 1, 0⟩ [], AudioNode.source ⟨false, true, 2, 0⟩ []] ≠ []) ∧
    (∀ node ∈ [AudioNode.source ⟨true, false, 1, 0⟩ [], AudioNode.source ⟨false, true, 2, 0⟩ []],
      0 ≤ node.latency) ∧
    (makeSummingAudioNode [AudioNode.source ⟨true, false, 1, 0⟩ [],
        AudioNode.source ⟨false, true, 2, 0⟩ []]).getAudioNodeProperties.numberOfChannels = 2 ∧
    ((makeSummingAudioNode [AudioNode.source ⟨true, false, 1, 0⟩ [],
        AudioNode.source ⟨false, true, 2, 0⟩ []]).getAudioNodeProperties.hasAudio
        = [AudioNode.source ⟨true, false, 1, 0⟩ [], AudioNode.source ⟨false, true, 2, 0⟩ []].any
            (fun n => n.getAudioNodeProperties.hasAudio) ∧
    (makeSummingAudioNode [AudioNode.source ⟨true, false, 1, 0⟩ [],
        AudioNode.source ⟨false, true, 2, 0⟩ []]).getAudioNodeProperties.hasMidi
        = [AudioNode.source ⟨true, false, 1, 0⟩ [], AudioNode.source ⟨false, true, 2, 0⟩ []].any
            (fun n => n.getAudioNodeProperties.hasMidi) ∧
    IsMaxChannels [AudioNode.source ⟨true, false, 1, 0⟩ [], AudioNode.source ⟨false, true, 2, 0⟩ []]
      (makeSummingAudioNode [AudioNode.source ⟨true, false, 1, 0⟩ [],
        AudioNode.source ⟨false, true, 2, 0⟩ []]).getAudioNodeProperties.numberOfChannels ∧
    IsMaxLatency [AudioNode.source ⟨true, false, 1, 0⟩ [], AudioNode.source ⟨false, true, 2, 0⟩ []]
      (makeSummingAudioNode [AudioNode.source ⟨true, false, 1, 0⟩ [],
        AudioNode.source ⟨false, true, 2, 0⟩ []]).getAudioNodeProperties.latencyNumSamples) :=
  have hne : [AudioNode.source ⟨true, false, 1, 0⟩ [], AudioNode.source ⟨false, true, 2, 0⟩ []]
      ≠ [] := by simp
  have hnn : ∀ node ∈ [AudioNode.source ⟨true, false, 1, 0⟩ [],
      AudioNode.source ⟨false, true, 2, 0⟩ []], 0 ≤ node.latency := by decide
  ⟨hne, hnn, by decide, C6_summing_node_properties _ hne hnn⟩

/-- Claim C7. For every list of inputs (with non-negative declared latencies)
handed to the constructor of the summing node, the direct inputs are as many as
the inputs and, with `Lmax` the maximum of the declared latencies, the direct
input at position `i` is a latency node of exactly `Lmax - latency_i` samples
around input `i` when `latency_i < Lmax`, and is input `i` itself when
`latency_i = Lmax`. -/
theorem C7_constructor_wraps_shorter_inputs (inputs : List AudioNode)
    (hnn : ∀ node ∈ inputs, 0 ≤ node.latency) :
    (makeSummingAudioNode inputs).directInputs.length = inputs.length ∧
    ∀ Lmax : Int, IsMaxLatency inputs Lmax →
      ∀ (i : Nat) (node : AudioNode), inputs[i]? = some node →
        (node.latency < Lmax →
          (makeSummingAudioNode inputs).directInputs[i]?
            = some (makeLatencyAudioNode node (Lmax - node.latency))) ∧
        (node.latency = Lmax →
          (makeSummingAudioNode inputs).directInputs[i]? = some node) :=
  constructor_wraps inputs hnn

theorem C7_constructor_wraps_shorter_inputs_witness :
    (∀ node ∈ [makeLatencyAudioNode (.source ⟨true, false, 1, 0⟩ []) 7,
        AudioNode.source ⟨true, false, 1, 0⟩ []], 0 ≤ node.latency) ∧
    IsMaxLatency [makeLatencyAudioNode (.source ⟨true, false, 1, 0⟩ []) 7,
        AudioNode.source ⟨true, false, 1, 0⟩ []] 7 ∧
    (makeSummingAudioNode [makeLatencyAudioNode (.source ⟨true, false, 1, 0⟩ []) 7,
        AudioNode.source ⟨true, false, 1, 0⟩ []]).directInputs.length = 2 ∧
    (makeSummingAudioNode [makeLatencyAudioNode (.source ⟨true, false, 1, 0⟩ []) 7,
        AudioNode.source ⟨true, false, 1, 0⟩ []]).directInputs[1]?
      = some (makeLatencyAudioNode (.source ⟨true, false, 1, 0⟩ []) 7) ∧
    (makeSummingAudioNode [makeLatencyAudioNode (.source ⟨true, false, 1, 0⟩ []) 7,
        AudioNode.source ⟨true, false, 1, 0⟩ []]).directInputs[0]?
      = some (makeLatencyAudioNode (.source ⟨true, false, 1, 0⟩ []) 7) :=
  have hnn : ∀ node ∈ [makeLatencyAudioNode (.source ⟨true, false, 1, 0⟩ []) 7,
      AudioNode.source ⟨true, false, 1, 0⟩ []], 0 ≤ node.latency := by decide
  have hmax : IsMaxLatency [makeLatencyAudioNode (.source ⟨true, false, 1, 0⟩ []) 7,
      AudioNode.source ⟨true, false, 1, 0⟩ []] 7 :=
    ⟨by decide, makeLatencyAudioNode (.source ⟨true, false, 1, 0⟩ []) 7, by simp, by decide⟩
  have h := C7_constructor_wraps_shorter_inputs _ hnn
  ⟨hnn, hmax, h.1,
    ((h.2 7 hmax 1 (.source ⟨true, false, 1, 0⟩ []) rfl).1 (by decide)),
    ((h.2 7 hmax 0 (makeLatencyAudioNode (.source ⟨true, false, 1, 0⟩ []) 7) rfl).2
      (by decide))⟩

/-- Claim C8. For every latency node with delay `L >= 0` and block size `B`, the
capacity `L + B + 1` within the range of `int`: right after `prepareToPlay` the ring holds `L` ready frames, and after every process
call of a sequence in which each call has an input block and an output block of
the same number of frames, at most `B`, it holds `L` ready frames again
(`k = 0` is the state after preparation, `k` the state after the `k`-th call). -/
theorem C8_ready_frames_equal_latency (L B C : Nat) (fifo0 : AudioFifo)
    (calls : List (AudioBlock × AudioBlock)) (hfit : L + B + 1 ≤ INT_MAX)
    (hcalls : ∀ call ∈ calls,
      getNumSamples call.1 = getNumSamples call.2 ∧ getNumSamples call.2 ≤ B) (k : Nat) :
    (LatencyAudioNode.processCalls (LatencyAudioNode.prepareToPlay C (L : Int) B fifo0)
      (calls.take k)).getNumReady = L := by
  obtain ⟨h1, h2, _⟩ := prepareToPlay_primed C L B fifo0 hfit
  exact (processCalls_counts L B (calls.take k) _ h1 h2
    (fun call hc => hcalls call (List.mem_of_mem_take hc))).2

theorem C8_ready_frames_equal_latency_witness :
    5 + 4 + 1 ≤ INT_MAX ∧
    (∀ call ∈ [(([[1, 2, 3]] : AudioBlock), ([[9, 9, 9]] : AudioBlock)), ([[4]], [[0]])],
      getNumSamples call.1 = getNumSamples call.2 ∧ getNumSamples call.2 ≤ 4) ∧
    (LatencyAudioNode.processCalls
      (LatencyAudioNode.prepareToPlay 1 ((5 : Nat) : Int) 4 (AudioFifo.init 1 32))
      ([(([[1, 2, 3]] : AudioBlock), ([[9, 9, 9]] : AudioBlock)), ([[4]], [[0]])].take
        2)).getNumReady = 5 :=
  have hcalls : ∀ call ∈ [(([[1, 2, 3]] : AudioBlock), ([[9, 9, 9]] : AudioBlock)),
      ([[4]], [[0]])],
      getNumSamples call.1 = getNumSamples call.2 ∧ getNumSamples call.2 ≤ 4 := by decide
  have hfit : 5 + 4 + 1 ≤ INT_MAX := by decide
  ⟨hfit, hcalls, C8_ready_frames_equal_latency 5 4 1 (AudioFifo.init 1 32) _ hfit hcalls 2⟩

/-- Claim C9. For every summing node and every block, when the output block is
zero on entry (`C` channels of `n` frames), after `process` each of its samples
is the sum over the direct inputs, in their order, of the sample at the same
channel and frame of that input's processed output (an input that has no such
sample contributes nothing). -/
theorem C9_summing_process_sums_inputs (outs : List AudioBlock) (C n c i : Nat) (hc : c < C)
    (hi : i < n) :
    getSample (SummingAudioNode.process outs (AudioBlock.zero C n)) c i
      = (outs.map (fun b => getSample b c i)).sum := by
  rw [getSample_process _ _ _ _ (by rw [zero_getD_length C n c hc]; exact hi), getSample_zero,
    zero_add]

theorem C9_summing_process_sums_inputs_witness :
    1 < 2 ∧ 0 < 2 ∧
    getSample (SummingAudioNode.process [[[1, 2], [3, 4]], [[10, 20], [30, 40]], [[100, 200]]]
      (AudioBlock.zero 2 2)) 1 0
      = ([[[1, 2], [3, 4]], [[10, 20], [30, 40]], [[100, 200]]].map
          (fun b => getSample b 1 0)).sum :=
  ⟨by decide, by decide,
    C9_summing_process_sums_inputs [[[1, 2], [3, 4]], [[10, 20], [30, 40]], [[100, 200]]] 2 2 1 0
      (by decide) (by decide)⟩

/-- Claim C11 as stated fails. A latency node over a latency node over a source,
in the state where only the direct input has its flag set: `isReadyToProcess()`
returns true although the source, which is in `getAllInputNodes()`, has not
processed. The same holds for a summing node over that chain. -/
theorem C11_ready_with_unprocessed_indirect_input :
    ¬ (isReadyToProcess (fun q => decide (q = [0]))
          (makeLatencyAudioNode (makeLatencyAudioNode (.source ⟨true, false, 1, 0⟩ []) 1) 1) = true ↔
        ∀ q ∈ (makeLatencyAudioNode
            (makeLatencyAudioNode (.source ⟨true, false, 1, 0⟩ []) 1) 1).getAllInputNodes,
          (fun q => decide (q = [0])) q = true) ∧
    ¬ (isReadyToProcess (fun q => decide (q = [0]))
          (AudioNode.summingAudioNode
            [makeLatencyAudioNode (.source ⟨true, false, 1, 0⟩ []) 1]) = true ↔
        ∀ q ∈ (AudioNode.summingAudioNode
            [makeLatencyAudioNode (.source ⟨true, false, 1, 0⟩ []) 1]).getAllInputNodes,
          (fun q => decide (q = [0])) q = true) := by
  decide

/-- Claim C11, amended. In every state of the flags `isReadyToProcess()` returns
true exactly when every direct input has processed; it returns true whenever
every node of `getAllInputNodes()` has processed; and in the states where every
processed input has its own inputs processed it returns true exactly when every
node of `getAllInputNodes()` has processed. -/
theorem C11_ready_iff_direct_inputs_processed (node : AudioNode)
    (hasProcessed : NodeId → Bool) :
    (node.isReadyToProcess hasProcessed = true ↔
      ∀ k, k < node.directInputs.length → hasProcessed [k] = true) ∧
    ((∀ q ∈ node.getAllInputNodes, hasProcessed q = true) →
      node.isReadyToProcess hasProcessed = true) ∧
    (DownwardClosed node hasProcessed →
      (node.isReadyToProcess hasProcessed = true ↔
        ∀ q ∈ node.getAllInputNodes, hasProcessed q = true)) :=
  ⟨isReadyToProcess_iff hasProcessed node, isReadyToProcess_of_all hasProcessed node,
    fun hclosed => ⟨all_of_isReadyToProcess hasProcessed node hclosed,
      isReadyToProcess_of_all hasProcessed node⟩⟩

theorem C11_ready_iff_direct_inputs_processed_witness :
    DownwardClosed
      (makeLatencyAudioNode (makeLatencyAudioNode (.source ⟨true, false, 1, 0⟩ []) 1) 1)
      (fun q => decide (q = [0] ∨ q = [0, 0])) ∧
    (isReadyToProcess (fun q => decide (q = [0] ∨ q = [0, 0]))
        (makeLatencyAudioNode (makeLatencyAudioNode (.source ⟨true, false, 1, 0⟩ []) 1) 1) = true ↔
      ∀ q ∈ (makeLatencyAudioNode
          (makeLatencyAudioNode (.source ⟨true, false, 1, 0⟩ []) 1) 1).getAllInputNodes,
        (fun q => decide (q = [0] ∨ q = [0, 0])) q = true) :=
  have hclosed : DownwardClosed
      (makeLatencyAudioNode (makeLatencyAudioNode (.source ⟨true, false, 1, 0⟩ []) 1) 1)
      (fun q => decide (q = [0] ∨ q = [0, 0])) := by
    intro q hq _ d hd r hr
    have hq2 : q = [0] ∨ q = [0, 0] := by
      simpa [makeLatencyAudioNode, getAllInputNodes] using hq
    rcases hq2 with rfl | rfl
    · simp only [makeLatencyAudioNode, nodeAt, directInputs, List.getElem?_cons_zero,
        Option.some.injEq] at hd
      subst hd
      have hr2 : r = [0] := by simpa [getAllInputNodes] using hr
      subst hr2
      decide
    · simp only [makeLatencyAudioNode, nodeAt, directInputs, List.getElem?_cons_zero,
        Option.some.injEq] at hd
      subst hd
      simp [getAllInputNodes] at hr
  ⟨hclosed, (C11_ready_iff_direct_inputs_processed _ _).2.2 hclosed⟩

/-- Claim C12. Within a block that starts with every flag cleared, each step
processes a node that has not processed and whose `isReadyToProcess()` is true
and sets its flag. In every state reached, a node of the tree that has processed
has every node of its `getAllInputNodes()` processed: no node begins before its
whole upstream has completed. -/
theorem C12_upstream_completes_first (root : AudioNode) (flags : NodeId → Bool)
    (hreach : Reachable root flags) (p : NodeId) (node : AudioNode)
    (hnode : root.nodeAt p = some node) (hp : flags p = true) (q : NodeId)
    (hq : q ∈ node.getAllInputNodes) : flags (p ++ q) = true :=
  reachable_closed root flags hreach p node hnode hp q hq

theorem C12_upstream_completes_first_witness :
    Reachable (makeLatencyAudioNode (.source ⟨true, false, 1, 0⟩ []) 1)
      (fun q => if q = [] then true else if q = [0] then true else false) ∧
    (makeLatencyAudioNode (.source ⟨true, false, 1, 0⟩ []) 1).nodeAt []
      = some (makeLatencyAudioNode (.source ⟨true, false, 1, 0⟩ []) 1) ∧
    [0] ∈ (makeLatencyAudioNode (.source ⟨true, false, 1, 0⟩ []) 1).getAllInputNodes ∧
    (fun q : NodeId => if q = [] then true else if q = [0] then true else false) ([] ++ [0])
      = true :=
  have h1 : Reachable (makeLatencyAudioNode (.source ⟨true, false, 1, 0⟩ []) 1)
      (fun q => if q = [0] then true else false) :=
    Reachable.step (fun _ => false) [0] (.source ⟨true, false, 1, 0⟩ []) Reachable.start rfl rfl
      rfl
  have h2 : Reachable (makeLatencyAudioNode (.source ⟨true, false, 1, 0⟩ []) 1)
      (fun q => if q = [] then true else if q = [0] then true else false) :=
    Reachable.step (fun q => if q = [0] then true else false) []
      (makeLatencyAudioNode (.source ⟨true, false, 1, 0⟩ []) 1) h1 rfl (by decide) (by decide)
  have hmem : [0] ∈ (makeLatencyAudioNode (.source ⟨true, false, 1, 0⟩ []) 1).getAllInputNodes :=
    by decide
  ⟨h2, rfl, hmem,
    C12_upstream_completes_first _ _ h2 [] _ rfl (by decide) [0] hmem⟩

/-- Claim C13, evaluated on the code. A latency node of 2 samples, prepared for
blocks of 4 frames, is run on two blocks; its input emits one MIDI event at
frame 3 of the first block. The claim places the event at frame 5, that is
frame 1 of the second block. `LatencyAudioNode::process` does not touch the MIDI
buffer (`//TODO: MIDI`): the node emits no event in either block. -/
theorem C13_latency_node_drops_midi :
    ((LatencyAudioNode.runContext 1
        (LatencyAudioNode.prepareToPlay 1 2 4 (AudioFifo.init 1 32))
        [⟨[[0, 0, 0, 0]], [⟨3, 60⟩]⟩, ⟨[[0, 0, 0, 0]], []⟩]).2.map (fun b => b.midi)
      = [[], []]) ∧
    ((LatencyAudioNode.runContext 1
        (LatencyAudioNode.prepareToPlay 1 2 4 (AudioFifo.init 1 32))
        [⟨[[0, 0, 0, 0]], [⟨3, 60⟩]⟩, ⟨[[0, 0, 0, 0]], []⟩]).2.map (fun b => b.midi)
      ≠ [[], [⟨1, 60⟩]]) := by
  decide

/-- Claim C14, evaluated on the code. A summing node over an audio branch delayed
by 2 samples and an undelayed MIDI branch: the constructor wraps the MIDI branch
in a latency node of 2 samples. In a block of 4 frames the MIDI branch emits an
event at frame 1, which the claim places at frame 3 of the output. Neither
`process` touches the MIDI buffer (`//TODO: MIDI`): the audio comes out delayed
by 2 samples and the MIDI output of the summing node is empty. -/
theorem C14_summing_node_drops_midi :
    ((makeSummingAudioNode
        [makeLatencyAudioNode (.source ⟨true, false, 1, 0⟩ []) 2,
         AudioNode.source ⟨false, true, 1, 0⟩ []]).directInputs
      = [makeLatencyAudioNode (.source ⟨true, false, 1, 0⟩ []) 2,
         makeLatencyAudioNode (.source ⟨false, true, 1, 0⟩ []) 2]) ∧
    (SummingAudioNode.processContext
        [(LatencyAudioNode.processContext
            (LatencyAudioNode.prepareToPlay 1 2 4 (AudioFifo.init 1 32))
            ⟨[[5, 6, 7, 8]], []⟩ (ProcessBuffers.cleared 1 4)).2,
         (LatencyAudioNode.processContext
            (LatencyAudioNode.prepareToPlay 1 2 4 (AudioFifo.init 1 32))
            ⟨[[0, 0, 0, 0]], [⟨1, 60⟩]⟩ (ProcessBuffers.cleared 1 4)).2]
        (ProcessBuffers.cleared 1 4)
      = ⟨[[0, 0, 5, 6]], []⟩) ∧
    ((SummingAudioNode.processContext
        [(LatencyAudioNode.processContext
            (LatencyAudioNode.prepareToPlay 1 2 4 (AudioFifo.init 1 32))
            ⟨[[5, 6, 7, 8]], []⟩ (ProcessBuffers.cleared 1 4)).2,
         (LatencyAudioNode.processContext
            (LatencyAudioNode.prepareToPlay 1 2 4 (AudioFifo.init 1 32))
            ⟨[[0, 0, 0, 0]], [⟨1, 60⟩]⟩ (ProcessBuffers.cleared 1 4)).2]
        (ProcessBuffers.cleared 1 4)).midi
      ≠ [⟨3, 60⟩]) := by
  refine ⟨rfl, by decide, by decide⟩

/-- Claim C15. A latency node constructed with delay 0 and prepared with any block
size `B` for which `B + 1` is within the range of `int` has a ring of capacity
`B + 1`, before and after any run, and every
process call on a cleared output block leaves in it the input's block for that
call, sample for sample. -/
theorem C15_zero_delay_copies (B C : Nat) (fifo0 : AudioFifo) (ins : List AudioBlock)
    (ns : List Nat) (hfit : B + 1 ≤ INT_MAX) (hs : Shapes ins C ns) (hB : ∀ n ∈ ns, n ≤ B) :
    (LatencyAudioNode.run C (LatencyAudioNode.prepareToPlay C 0 B fifo0) ins).2 = ins ∧
    (LatencyAudioNode.prepareToPlay C 0 B fifo0).size = B + 1 ∧
    (LatencyAudioNode.run C (LatencyAudioNode.prepareToPlay C 0 B fifo0) ins).1.size = B + 1 := by
  have hp : (LatencyAudioNode.prepareToPlay C 0 B fifo0).Primed C 0 B := by
    have := prepareToPlay_primed C 0 B fifo0 (by omega)
    simpa using this
  refine ⟨run_copy C B ins ns _ hp hs hB, ?_, ?_⟩
  · simpa using hp.1
  · simpa using (run_primed C 0 B ins ns _ hp hs hB).1.1

theorem C15_zero_delay_copies_witness :
    4 + 1 ≤ INT_MAX ∧ Shapes [[[1, 2, 3]], [[4, 5]]] 1 [3, 2] ∧ (∀ n ∈ [3, 2], n ≤ 4) ∧
    ((LatencyAudioNode.run 1 (LatencyAudioNode.prepareToPlay 1 0 4 (AudioFifo.init 1 32))
        [[[1, 2, 3]], [[4, 5]]]).2 = [[[1, 2, 3]], [[4, 5]]] ∧
    (LatencyAudioNode.prepareToPlay 1 0 4 (AudioFifo.init 1 32)).size = 4 + 1 ∧
    (LatencyAudioNode.run 1 (LatencyAudioNode.prepareToPlay 1 0 4 (AudioFifo.init 1 32))
        [[[1, 2, 3]], [[4, 5]]]).1.size = 4 + 1) :=
  have hs : Shapes [[[1, 2, 3]], [[4, 5]]] 1 [3, 2] := by simp [Shapes, HasShape]
  have hB : ∀ n ∈ [3, 2], n ≤ 4 := by decide
  have hfit : 4 + 1 ≤ INT_MAX := by decide
  ⟨hfit, hs, hB, C15_zero_delay_copies 4 1 (AudioFifo.init 1 32) _ [3, 2] hfit hs hB⟩

/-- Claim C16. For a latency node of delay `L` prepared with block size `B`, the
capacity `L + B + 1` within the range of `int`, two ways of
cutting one input stream into consecutive blocks of at most `B` frames give the
same concatenated output stream, channel by channel. -/
theorem C16_output_independent_of_block_cut (L B C : Nat) (fifo0 : AudioFifo)
    (ins1 ins2 : List AudioBlock) (ns1 ns2 : List Nat) (hfit : L + B + 1 ≤ INT_MAX)
    (hs1 : Shapes ins1 C ns1)
    (hs2 : Shapes ins2 C ns2) (hB1 : ∀ n ∈ ns1, n ≤ B) (hB2 : ∀ n ∈ ns2, n ≤ B) (c : Nat)
    (hc : c < C) (hsame : concatChannel ins1 c = concatChannel ins2 c) :
    concatChannel
        (LatencyAudioNode.run C (LatencyAudioNode.prepareToPlay C (L : Int) B fifo0) ins1).2 c
      = concatChannel
        (LatencyAudioNode.run C (LatencyAudioNode.prepareToPlay C (L : Int) B fifo0) ins2).2 c := by
  rw [run_stream C L B ins1 ns1 fifo0 hfit hs1 hB1 c hc,
    run_stream C L B ins2 ns2 fifo0 hfit hs2 hB2 c hc, hsame]

theorem C16_output_independent_of_block_cut_witness :
    2 + 4 + 1 ≤ INT_MAX ∧ Shapes [[[1, 2, 3]], [[4, 5]]] 1 [3, 2] ∧ Shapes [[[1]], [[2, 3, 4, 5]]] 1 [1, 4] ∧
    (∀ n ∈ [3, 2], n ≤ 4) ∧ (∀ n ∈ [1, 4], n ≤ 4) ∧ 0 < 1 ∧
    concatChannel [[[1, 2, 3]], [[4, 5]]] 0 = concatChannel [[[1]], [[2, 3, 4, 5]]] 0 ∧
    concatChannel
        (LatencyAudioNode.run 1 (LatencyAudioNode.prepareToPlay 1 ((2 : Nat) : Int) 4
          (AudioFifo.init 1 32)) [[[1, 2, 3]], [[4, 5]]]).2 0
      = concatChannel
        (LatencyAudioNode.run 1 (LatencyAudioNode.prepareToPlay 1 ((2 : Nat) : Int) 4
          (AudioFifo.init 1 32)) [[[1]], [[2, 3, 4, 5]]]).2 0 :=
  have hs1 : Shapes [[[1, 2, 3]], [[4, 5]]] 1 [3, 2] := by simp [Shapes, HasShape]
  have hs2 : Shapes [[[1]], [[2, 3, 4, 5]]] 1 [1, 4] := by simp [Shapes, HasShape]
  have hB1 : ∀ n ∈ [3, 2], n ≤ 4 := by decide
  have hB2 : ∀ n ∈ [1, 4], n ≤ 4 := by decide
  have hsame : concatChannel [[[1, 2, 3]], [[4, 5]]] 0
      = concatChannel [[[1]], [[2, 3, 4, 5]]] 0 := by decide
  have hfit : 2 + 4 + 1 ≤ INT_MAX := by decide
  ⟨hfit, hs1, hs2, hB1, hB2, by decide, hsame,
    C16_output_independent_of_block_cut 2 4 1 (AudioFifo.init 1 32) _ _ [3, 2] [1, 4] hfit hs1
      hs2 hB1 hB2 0 (by decide) hsame⟩

/-- Claim C17. A return node whose direct upstream is a zero-latency source and
whose bus has one sender of latency `L`; sender and direct upstream emit blocks
of the same sizes, at most the prepared block size `B`, and `L + B + 1` is
within the range of `int`. On every channel, frame `i`
of the concatenated output of the return node (the same frame of the same block
as frame `i` of the sender's output) is the sender's frame `i`, plus the direct
upstream's frame `i - L` once `i >= L`. -/
theorem C17_return_adds_sender_in_block (C B L : Nat) (ns : List Nat)
    (hasAudio hasMidi : Bool) (x : List AudioBlock) (senderProps : AudioNodeProperties)
    (y : List AudioBlock) (hfit : L + B + 1 ≤ INT_MAX) (hB : ∀ n ∈ ns, n ≤ B)
    (hx : Shapes x C ns) (hy : Shapes y C ns)
    (hsc : senderProps.numberOfChannels = C) (hsl : senderProps.latencyNumSamples = (L : Int))
    (c i : Nat) (hc : c < C) (hi : i < ns.sum) :
    (i < L →
      (concatChannel (render (prepareToPlay B (makeReturnAudioNode
          (.source ⟨hasAudio, hasMidi, C, 0⟩ x) [senderTap senderProps y])) ns) c).getD i 0
        = (concatChannel y c).getD i 0) ∧
    (L ≤ i →
      (concatChannel (render (prepareToPlay B (makeReturnAudioNode
          (.source ⟨hasAudio, hasMidi, C, 0⟩ x) [senderTap senderProps y])) ns) c).getD i 0
        = (concatChannel y c).getD i 0 + (concatChannel x c).getD (i - L) 0) := by
  rw [return_stream C B L ns hasAudio hasMidi x senderProps y hfit hB hx hy hsc hsl c i hc hi]
  have hlen : i < (concatChannel x c).length := by
    rw [concatChannel_length x C ns c hx hc]; exact hi
  obtain ⟨h1, h2⟩ := delayed_getD L (concatChannel x c) i hlen
  constructor
  · intro hlt
    rw [h1 hlt, zero_add]
  · intro hge
    rw [h2 hge, add_comm]

theorem C17_return_adds_sender_in_block_witness :
    1 + 2 + 1 ≤ INT_MAX ∧ (∀ n ∈ [2, 2], n ≤ 2) ∧ Shapes [[[1, 2]], [[3, 4]]] 1 [2, 2] ∧
    Shapes [[[0, 10]], [[20, 30]]] 1 [2, 2] ∧
    (AudioNodeProperties.mk true false 1 1).numberOfChannels = 1 ∧
    (AudioNodeProperties.mk true false 1 1).latencyNumSamples = ((1 : Nat) : Int) ∧
    0 < 1 ∧ 2 < [2, 2].sum ∧
    ((2 < 1 →
      (concatChannel (render (prepareToPlay 2 (makeReturnAudioNode
          (.source ⟨true, false, 1, 0⟩ [[[1, 2]], [[3, 4]]])
          [senderTap ⟨true, false, 1, 1⟩ [[[0, 10]], [[20, 30]]]])) [2, 2]) 0).getD 2 0
        = (concatChannel [[[0, 10]], [[20, 30]]] 0).getD 2 0) ∧
    (1 ≤ 2 →
      (concatChannel (render (prepareToPlay 2 (makeReturnAudioNode
          (.source ⟨true, false, 1, 0⟩ [[[1, 2]], [[3, 4]]])
          [senderTap ⟨true, false, 1, 1⟩ [[[0, 10]], [[20, 30]]]])) [2, 2]) 0).getD 2 0
        = (concatChannel [[[0, 10]], [[20, 30]]] 0).getD 2 0
          + (concatChannel [[[1, 2]], [[3, 4]]] 0).getD (2 - 1) 0)) :=
  have hB : ∀ n ∈ [2, 2], n ≤ 2 := by decide
  have hx : Shapes [[[1, 2]], [[3, 4]]] 1 [2, 2] := by simp [Shapes, HasShape]
  have hy : Shapes [[[0, 10]], [[20, 30]]] 1 [2, 2] := by simp [Shapes, HasShape]
  have hfit : 1 + 2 + 1 ≤ INT_MAX := by decide
  ⟨hfit, hB, hx, hy, rfl, rfl, by decide, by decide,
    C17_return_adds_sender_in_block 1 2 1 [2, 2] true false _ ⟨true, false, 1, 1⟩ _ hfit hB hx
      hy rfl rfl 0 2 (by decide) (by decide)⟩

/-- Claim C18. After preparation, whatever blocks the executor then runs on the
tree, every node of the tree (the node itself, `p = []`, and every input below
it) declares the same properties as before the blocks: processing changes the
rings and the output blocks, never the declared properties. -/
theorem C18_process_keeps_properties (B : Nat) (node : AudioNode) (ns : List Nat)
    (p : NodeId) :
    ((advance (prepareToPlay B node) ns).nodeAt p).map getAudioNodeProperties
      = ((prepareToPlay B node).nodeAt p).map getAudioNodeProperties := by
  rw [nodeAt_advance, Option.map_map]
  congr 1
  funext d
  exact advance_props ns d

/-- Claim C19. A latency node with delay `L >= 0` is prepared with block size `B`
(ring of capacity `L + B + 1`, within the range of `int`, holding `L` ready
frames) and then called any
number of times, each call with an input block of the declared channel count
and of at most `B` frames and an output block of the same number of frames. At
every call the three assertions of `process` hold and the write fits in the
free space of the ring. -/
theorem C19_assertions_never_fail (L B C : Nat) (fifo0 : AudioFifo)
    (calls : List (AudioBlock × AudioBlock)) (hfit : L + B + 1 ≤ INT_MAX)
    (hcalls : ∀ call ∈ calls, (∃ n, n ≤ B ∧ AudioBlock.HasShape call.1 C n) ∧
      AudioBlock.getNumSamples call.2 = AudioBlock.getNumSamples call.1)
    (k : Nat) (call : AudioBlock × AudioBlock) (hk : calls[k]? = some call) :
    (LatencyAudioNode.prepareToPlay C (L : Int) B fifo0).size = L + B + 1 ∧
    (LatencyAudioNode.prepareToPlay C (L : Int) B fifo0).getNumReady = L ∧
    LatencyAudioNode.assertionsHold
      (LatencyAudioNode.processCalls (LatencyAudioNode.prepareToPlay C (L : Int) B fifo0)
        (calls.take k)) call.1 call.2 ∧
    LatencyAudioNode.writeFits
      (LatencyAudioNode.processCalls (LatencyAudioNode.prepareToPlay C (L : Int) B fifo0)
        (calls.take k)) call.1 := by
  have hp := prepareToPlay_primed C L B fifo0 hfit
  exact ⟨hp.1, hp.2.1, processCalls_assertions C L B calls _ hp hcalls k call hk⟩

theorem C19_assertions_never_fail_witness :
    5 + 4 + 1 ≤ INT_MAX ∧
    (∀ call ∈ [(([[1, 2, 3]] : AudioBlock), ([[9, 9, 9]] : AudioBlock)), ([[4]], [[0]])],
      (∃ n, n ≤ 4 ∧ AudioBlock.HasShape call.1 1 n) ∧
        AudioBlock.getNumSamples call.2 = AudioBlock.getNumSamples call.1) ∧
    [(([[1, 2, 3]] : AudioBlock), ([[9, 9, 9]] : AudioBlock)), ([[4]], [[0]])][1]?
      = some ([[4]], [[0]]) ∧
    ((LatencyAudioNode.prepareToPlay 1 ((5 : Nat) : Int) 4 (AudioFifo.init 1 32)).size
        = 5 + 4 + 1 ∧
    (LatencyAudioNode.prepareToPlay 1 ((5 : Nat) : Int) 4 (AudioFifo.init 1 32)).getNumReady = 5 ∧
    LatencyAudioNode.assertionsHold
      (LatencyAudioNode.processCalls
        (LatencyAudioNode.prepareToPlay 1 ((5 : Nat) : Int) 4 (AudioFifo.init 1 32))
        ([(([[1, 2, 3]] : AudioBlock), ([[9, 9, 9]] : AudioBlock)), ([[4]], [[0]])].take 1))
      ([[4]], [[0]]).1 ([[4]], [[0]]).2 ∧
    LatencyAudioNode.writeFits
      (LatencyAudioNode.processCalls
        (LatencyAudioNode.prepareToPlay 1 ((5 : Nat) : Int) 4 (AudioFifo.init 1 32))
        ([(([[1, 2, 3]] : AudioBlock), ([[9, 9, 9]] : AudioBlock)), ([[4]], [[0]])].take 1))
      ([[4]], [[0]]).1) :=
  have hcalls : ∀ call ∈ [(([[1, 2, 3]] : AudioBlock), ([[9, 9, 9]] : AudioBlock)),
      ([[4]], [[0]])],
      (∃ n, n ≤ 4 ∧ AudioBlock.HasShape call.1 1 n) ∧
        AudioBlock.getNumSamples call.2 = AudioBlock.getNumSamples call.1 := by
    intro call hc
    rcases List.mem_cons.mp hc with rfl | hc2
    · exact ⟨⟨3, by decide, by simp [AudioBlock.HasShape]⟩, rfl⟩
    · obtain rfl := List.mem_singleton.mp hc2
      exact ⟨⟨1, by decide, by simp [AudioBlock.HasShape]⟩, rfl⟩
  have hfit : 5 + 4 + 1 ≤ INT_MAX := by decide
  ⟨hfit, hcalls, rfl,
    C19_assertions_never_fail 5 4 1 (AudioFifo.init 1 32) _ hfit hcalls 1 _ rfl⟩

/-- Claim C20. `getAllInputNodes()` is total on finite trees. Its list is in
pre-order, has no node twice, and holds exactly the nodes strictly below the
node. For a summing node as its constructor leaves it, the list holds each
latency node the constructor has inserted, at the place of the input it wraps,
followed by that input. -/
theorem C20_input_list_is_preorder_of_descendants (node : AudioNode)
    (inputs : List AudioNode) :
    node.getAllInputNodes.Pairwise Before ∧
    node.getAllInputNodes.Nodup ∧
    (∀ q : NodeId, q ∈ node.getAllInputNodes ↔ q ≠ [] ∧ (node.nodeAt q).isSome = true) ∧
    (∀ (i : Nat) (x : AudioNode), inputs[i]? = some x →
      (AudioNode.summingAudioNode inputs).getAudioNodeProperties.latencyNumSamples - x.latency ≠ 0 →
        [i] ∈ (makeSummingAudioNode inputs).getAllInputNodes ∧
        (makeSummingAudioNode inputs).nodeAt [i]
          = some (makeLatencyAudioNode x
              ((AudioNode.summingAudioNode inputs).getAudioNodeProperties.latencyNumSamples
                - x.latency)) ∧
        [i, 0] ∈ (makeSummingAudioNode inputs).getAllInputNodes ∧
        (makeSummingAudioNode inputs).nodeAt [i, 0] = some x) := by
  refine ⟨pairwise_getAllInputNodes node, nodup_getAllInputNodes node,
    fun q => mem_getAllInputNodes_iff_nodeAt q node, ?_⟩
  intro i x hi hne
  have hd : (makeSummingAudioNode inputs).directInputs[i]?
      = some (makeLatencyAudioNode x
          ((AudioNode.summingAudioNode inputs).getAudioNodeProperties.latencyNumSamples
            - x.latency)) := by
    rw [directInputs_makeSummingAudioNode, addLatencies_getElem?, hi]
    simp [hne]
  have h1 : (makeSummingAudioNode inputs).nodeAt [i]
      = some (makeLatencyAudioNode x
          ((AudioNode.summingAudioNode inputs).getAudioNodeProperties.latencyNumSamples
            - x.latency)) := by
    simp [nodeAt, hd]
  have h2 : (makeSummingAudioNode inputs).nodeAt [i, 0] = some x := by
    simp only [nodeAt, hd]
    rfl
  refine ⟨?_, h1, ?_, h2⟩
  · rw [mem_getAllInputNodes_iff_nodeAt, h1]; simp
  · rw [mem_getAllInputNodes_iff_nodeAt, h2]; simp

theorem C20_input_list_is_preorder_of_descendants_witness :
    [makeLatencyAudioNode (.source ⟨true, false, 1, 0⟩ []) 7,
        AudioNode.source ⟨true, false, 1, 0⟩ []][1]?
      = some (AudioNode.source ⟨true, false, 1, 0⟩ []) ∧
    (makeSummingAudioNode [makeLatencyAudioNode (.source ⟨true, false, 1, 0⟩ []) 7,
        AudioNode.source ⟨true, false, 1, 0⟩ []]).getAllInputNodes
      = [[0], [0, 0], [1], [1, 0]] ∧
    [1] ∈ (makeSummingAudioNode [makeLatencyAudioNode (.source ⟨true, false, 1, 0⟩ []) 7,
        AudioNode.source ⟨true, false, 1, 0⟩ []]).getAllInputNodes ∧
    (makeSummingAudioNode [makeLatencyAudioNode (.source ⟨true, false, 1, 0⟩ []) 7,
        AudioNode.source ⟨true, false, 1, 0⟩ []]).nodeAt [1]
      = some (makeLatencyAudioNode (.source ⟨true, false, 1, 0⟩ []) 7) :=
  have h := (C20_input_list_is_preorder_of_descendants
    (makeSummingAudioNode [makeLatencyAudioNode (.source ⟨true, false, 1, 0⟩ []) 7,
        AudioNode.source ⟨true, false, 1, 0⟩ []])
    [makeLatencyAudioNode (.source ⟨true, false, 1, 0⟩ []) 7,
        AudioNode.source ⟨true, false, 1, 0⟩ []]).2.2.2 1
      (.source ⟨true, false, 1, 0⟩ []) rfl (by decide)
  ⟨rfl, by decide, h.1, h.2.1⟩

/-- Claim C21. For every list of inputs with non-negative declared latencies, the
properties the summing node declares once its constructor has wrapped the
shorter inputs (`hasAudio`, `hasMidi`, `numberOfChannels`, `latencyNumSamples`)
are those computed from the unwrapped inputs at the start of the constructor. -/
theorem C21_wrapping_keeps_summing_properties (inputs : List AudioNode)
    (hnn : ∀ node ∈ inputs, 0 ≤ node.latency) :
    (makeSummingAudioNode inputs).getAudioNodeProperties.hasAudio
      = (AudioNode.summingAudioNode inputs).getAudioNodeProperties.hasAudio ∧
    (makeSummingAudioNode inputs).getAudioNodeProperties.hasMidi
      = (AudioNode.summingAudioNode inputs).getAudioNodeProperties.hasMidi ∧
    (makeSummingAudioNode inputs).getAudioNodeProperties.numberOfChannels
      = (AudioNode.summingAudioNode inputs).getAudioNodeProperties.numberOfChannels ∧
    (makeSummingAudioNode inputs).getAudioNodeProperties.latencyNumSamples
      = (AudioNode.summingAudioNode inputs).getAudioNodeProperties.latencyNumSamples :=
  constructor_keeps_properties inputs hnn

theorem C21_wrapping_keeps_summing_properties_witness :
    (∀ node ∈ [makeLatencyAudioNode (.source ⟨true, false, 1, 0⟩ []) 10,
        makeLatencyAudioNode (.source ⟨false, true, 2, 0⟩ []) 4], 0 ≤ node.latency) ∧
    (makeSummingAudioNode [makeLatencyAudioNode (.source ⟨true, false, 1, 0⟩ []) 10,
        makeLatencyAudioNode (.source ⟨false, true, 2, 0⟩ []) 4]).getAudioNodeProperties
      = ⟨true, true, 2, 10⟩ ∧
    ((makeSummingAudioNode [makeLatencyAudioNode (.source ⟨true, false, 1, 0⟩ []) 10,
        makeLatencyAudioNode (.source ⟨false, true, 2, 0⟩ []) 4]).getAudioNodeProperties.hasAudio
      = (AudioNode.summingAudioNode [makeLatencyAudioNode (.source ⟨true, false, 1, 0⟩ []) 10,
        makeLatencyAudioNode (.source ⟨false, true, 2, 0⟩ []) 4]).getAudioNodeProperties.hasAudio ∧
    (makeSummingAudioNode [makeLatencyAudioNode (.source ⟨true, false, 1, 0⟩ []) 10,
        makeLatencyAudioNode (.source ⟨false, true, 2, 0⟩ []) 4]).getAudioNodeProperties.hasMidi
      = (AudioNode.summingAudioNode [makeLatencyAudioNode (.source ⟨true, false, 1, 0⟩ []) 10,
        makeLatencyAudioNode (.source ⟨false, true, 2, 0⟩ []) 4]).getAudioNodeProperties.hasMidi ∧
    (makeSummingAudioNode [makeLatencyAudioNode (.source ⟨true, false, 1, 0⟩ []) 10,
        makeLatencyAudioNode (.source ⟨false, true, 2, 0⟩ [])
          4]).getAudioNodeProperties.numberOfChannels
      = (AudioNode.summingAudioNode [makeLatencyAudioNode (.source ⟨true, false, 1, 0⟩ []) 10,
        makeLatencyAudioNode (.source ⟨false, true, 2, 0⟩ [])
          4]).getAudioNodeProperties.numberOfChannels ∧
    (makeSummingAudioNode [makeLatencyAudioNode (.source ⟨true, false, 1, 0⟩ []) 10,
        makeLatencyAudioNode (.source ⟨false, true, 2, 0⟩ [])
          4]).getAudioNodeProperties.latencyNumSamples
      = (AudioNode.summingAudioNode [makeLatencyAudioNode (.source ⟨true, false, 1, 0⟩ []) 10,
        makeLatencyAudioNode (.source ⟨false, true, 2, 0⟩ [])
          4]).getAudioNodeProperties.latencyNumSamples) :=
  have hnn : ∀ node ∈ [makeLatencyAudioNode (.source ⟨true, false, 1, 0⟩ []) 10,
      makeLatencyAudioNode (.source ⟨false, true, 2, 0⟩ []) 4], 0 ≤ node.latency := by decide
  ⟨hnn, by decide, C21_wrapping_keeps_summing_properties _ hnn⟩

/-- Claim C22. For every list of inputs (non-empty, as it has a maximum) with
non-negative declared latencies and maximum `Lmax`: after the constructor of the
summing node every direct input declares `latencyNumSamples = Lmax` if and only
if every input handed to the constructor declared 0 or `Lmax`. -/
theorem C22_equal_latencies_iff_zero_or_max (inputs : List AudioNode)
    (hnn : ∀ node ∈ inputs, 0 ≤ node.latency) (Lmax : Int)
    (hmax : IsMaxLatency inputs Lmax) :
    (∀ d ∈ (makeSummingAudioNode inputs).directInputs, d.latency = Lmax) ↔
      ∀ x ∈ inputs, x.latency = 0 ∨ x.latency = Lmax :=
  equalised_iff inputs hnn Lmax hmax

theorem C22_equal_latencies_iff_zero_or_max_witness :
    (∀ node ∈ [makeLatencyAudioNode (.source ⟨true, false, 1, 0⟩ []) 10,
        makeLatencyAudioNode (.source ⟨true, false, 1, 0⟩ []) 4], 0 ≤ node.latency) ∧
    IsMaxLatency [makeLatencyAudioNode (.source ⟨true, false, 1, 0⟩ []) 10,
        makeLatencyAudioNode (.source ⟨true, false, 1, 0⟩ []) 4] 10 ∧
    ¬ (∀ x ∈ [makeLatencyAudioNode (.source ⟨true, false, 1, 0⟩ []) 10,
        makeLatencyAudioNode (.source ⟨true, false, 1, 0⟩ []) 4],
        x.latency = 0 ∨ x.latency = 10) ∧
    ((∀ d ∈ (makeSummingAudioNode [makeLatencyAudioNode (.source ⟨true, false, 1, 0⟩ []) 10,
        makeLatencyAudioNode (.source ⟨true, false, 1, 0⟩ []) 4]).directInputs,
        d.latency = 10) ↔
      ∀ x ∈ [makeLatencyAudioNode (.source ⟨true, false, 1, 0⟩ []) 10,
        makeLatencyAudioNode (.source ⟨true, false, 1, 0⟩ []) 4],
        x.latency = 0 ∨ x.latency = 10) :=
  have hnn : ∀ node ∈ [makeLatencyAudioNode (.source ⟨true, false, 1, 0⟩ []) 10,
      makeLatencyAudioNode (.source ⟨true, false, 1, 0⟩ []) 4], 0 ≤ node.latency := by decide
  have hmax : IsMaxLatency [makeLatencyAudioNode (.source ⟨true, false, 1, 0⟩ []) 10,
      makeLatencyAudioNode (.source ⟨true, false, 1, 0⟩ []) 4] 10 :=
    ⟨by decide, makeLatencyAudioNode (.source ⟨true, false, 1, 0⟩ []) 10, by simp, by decide⟩
  ⟨hnn, hmax, by decide, C22_equal_latencies_iff_zero_or_max _ hnn 10 hmax⟩

/-- Claim C23. For every list of inputs with non-negative declared latencies and
maximum `Lmax`, at every position the constructor of the summing node either
leaves the input as it is or creates a latency node around it whose configured
delay `d` satisfies `0 < d <= Lmax`: it never creates a latency node with a zero
or negative delay. -/
theorem C23_created_delays_positive (inputs : List AudioNode)
    (hnn : ∀ node ∈ inputs, 0 ≤ node.latency) (Lmax : Int)
    (hmax : IsMaxLatency inputs Lmax) (i : Nat) (x : AudioNode) (hi : inputs[i]? = some x) :
    (makeSummingAudioNode inputs).directInputs[i]? = some x ∨
    ∃ d : Int, 0 < d ∧ d ≤ Lmax ∧
      (makeSummingAudioNode inputs).directInputs[i]?
        = some (.latencyAudioNode x d (AudioFifo.init 1 32)) := by
  rw [directInputs_makeSummingAudioNode, maxLatency_of_isMax inputs Lmax hnn hmax,
    addLatencies_getElem?, hi]
  have hx := List.getElem?_mem hi
  have h1 := hmax.1 x hx
  have h2 := hnn x hx
  by_cases h0 : Lmax - x.latency = 0
  · left; simp [h0]
  · right
    exact ⟨Lmax - x.latency, by omega, by omega, by simp [h0, makeLatencyAudioNode]⟩

theorem C23_created_delays_positive_witness :
    (∀ node ∈ [makeLatencyAudioNode (.source ⟨true, false, 1, 0⟩ []) 10,
        makeLatencyAudioNode (.source ⟨true, false, 1, 0⟩ []) 4], 0 ≤ node.latency) ∧
    IsMaxLatency [makeLatencyAudioNode (.source ⟨true, false, 1, 0⟩ []) 10,
        makeLatencyAudioNode (.source ⟨true, false, 1, 0⟩ []) 4] 10 ∧
    [makeLatencyAudioNode (.source ⟨true, false, 1, 0⟩ []) 10,
        makeLatencyAudioNode (.source ⟨true, false, 1, 0⟩ []) 4][1]?
      = some (makeLatencyAudioNode (.source ⟨true, false, 1, 0⟩ []) 4) ∧
    (makeSummingAudioNode [makeLatencyAudioNode (.source ⟨true, false, 1, 0⟩ []) 10,
        makeLatencyAudioNode (.source ⟨true, false, 1, 0⟩ []) 4]).directInputs[1]?
      = some (.latencyAudioNode (makeLatencyAudioNode (.source ⟨true, false, 1, 0⟩ []) 4) 6
          (AudioFifo.init 1 32)) ∧
    ((makeSummingAudioNode [makeLatencyAudioNode (.source ⟨true, false, 1, 0⟩ []) 10,
        makeLatencyAudioNode (.source ⟨true, false, 1, 0⟩ []) 4]).directInputs[1]?
      = some (makeLatencyAudioNode (.source ⟨true, false, 1, 0⟩ []) 4) ∨
    ∃ d : Int, 0 < d ∧ d ≤ 10 ∧
      (makeSummingAudioNode [makeLatencyAudioNode (.source ⟨true, false, 1, 0⟩ []) 10,
        makeLatencyAudioNode (.source ⟨true, false, 1, 0⟩ []) 4]).directInputs[1]?
        = some (.latencyAudioNode (makeLatencyAudioNode (.source ⟨true, false, 1, 0⟩ []) 4) d
            (AudioFifo.init 1 32))) :=
  have hnn : ∀ node ∈ [makeLatencyAudioNode (.source ⟨true, false, 1, 0⟩ []) 10,
      makeLatencyAudioNode (.source ⟨true, false, 1, 0⟩ []) 4], 0 ≤ node.latency := by decide
  have hmax : IsMaxLatency [makeLatencyAudioNode (.source ⟨true, false, 1, 0⟩ []) 10,
      makeLatencyAudioNode (.source ⟨true, false, 1, 0⟩ []) 4] 10 :=
    ⟨by decide, makeLatencyAudioNode (.source ⟨true, false, 1, 0⟩ []) 10, by simp, by decide⟩
  ⟨hnn, hmax, rfl, rfl, C23_created_delays_positive _ hnn 10 hmax 1 _ rfl⟩

/-- Claim C24. In every tree of latency nodes, summing nodes and leaves, every
node of the `getAllInputNodes()` of a node declares a latency that is at most
the latency the node declares (whatever the leaves declare, so also for leaves
with non-negative latency): declared latency is monotone towards the root. -/
theorem C24_latency_monotone_towards_root (node : AudioNode) (q : NodeId)
    (hq : q ∈ node.getAllInputNodes) :
    ∃ d : AudioNode, node.nodeAt q = some d ∧ d.latency ≤ node.latency := by
  have hsome := ((mem_getAllInputNodes_iff_nodeAt q node).mp hq).2
  obtain ⟨d, hd⟩ := Option.isSome_iff_exists.mp hsome
  exact ⟨d, hd, latency_nodeAt_le q node d hd⟩

theorem C24_latency_monotone_towards_root_witness :
    [1, 0] ∈ (makeSummingAudioNode [makeLatencyAudioNode (.source ⟨true, false, 1, 0⟩ []) 10,
        makeLatencyAudioNode (.source ⟨true, false, 1, 0⟩ []) 4]).getAllInputNodes ∧
    (makeSummingAudioNode [makeLatencyAudioNode (.source ⟨true, false, 1, 0⟩ []) 10,
        makeLatencyAudioNode (.source ⟨true, false, 1, 0⟩ []) 4]).nodeAt [1, 0]
      = some (makeLatencyAudioNode (.source ⟨true, false, 1, 0⟩ []) 4) ∧
    ∃ d : AudioNode,
      (makeSummingAudioNode [makeLatencyAudioNode (.source ⟨true, false, 1, 0⟩ []) 10,
        makeLatencyAudioNode (.source ⟨true, false, 1, 0⟩ []) 4]).nodeAt [1, 0] = some d ∧
      d.latency
        ≤ (makeSummingAudioNode [makeLatencyAudioNode (.source ⟨true, false, 1, 0⟩ []) 10,
          makeLatencyAudioNode (.source ⟨true, false, 1, 0⟩ []) 4]).latency :=
  have hq : [1, 0] ∈ (makeSummingAudioNode
      [makeLatencyAudioNode (.source ⟨true, false, 1, 0⟩ []) 10,
        makeLatencyAudioNode (.source ⟨true, false, 1, 0⟩ []) 4]).getAllInputNodes := by decide
  ⟨hq, rfl, C24_latency_monotone_towards_root _ [1, 0] hq⟩

/-- Claim C25. A summing node constructed from an empty list of inputs declares
`hasAudio = false`, `hasMidi = false`, `numberOfChannels = 0` and
`latencyNumSamples = 0`; its `isReadyToProcess()` is true in every state of the
flags; its `getAllInputNodes()` is empty; and as it has no inputs, its `process`
runs its loop over no output at all and leaves the output block as it was
handed in. -/
theorem C25_empty_summing_node (hasProcessed : NodeId → Bool) (audio : AudioBlock) :
    makeSummingAudioNode [] = AudioNode.summingAudioNode [] ∧
    (makeSummingAudioNode []).getAudioNodeProperties
      = { hasAudio := false, hasMidi := false, numberOfChannels := 0, latencyNumSamples := 0 } ∧
    (makeSummingAudioNode []).isReadyToProcess hasProcessed = true ∧
    (makeSummingAudioNode []).getAllInputNodes = [] ∧
    (makeSummingAudioNode []).directInputs = [] ∧
    SummingAudioNode.process [] audio = audio :=
  ⟨rfl, rfl, rfl, rfl, rfl, rfl⟩

end Claims

end TracktionGraph
